import Mathlib

/-!
Verification of the granian-wrapper HTTP dispatch layer.

This file contains a shallow embedding, in Lean 4, of the routing and
body-decoding core of the repository (files granian_web/wrapper.py,
granian_web/util.py, granian_web/responses.py), together with theorems
settling the specification claims about it.

Modelling conventions:
* Python byte strings are `List Nat` (each entry a byte value).
* Python `str` values are Lean `String`/`List Char` (one entry per code point,
  as in CPython).
* Fallible Python code (raising exceptions) is embedded with `Except PyErr`.
* Stateful objects (the request context with its memoization fields and its
  chunk stream) are embedded with explicit state passing.
* External collaborators (the granian transport, the stdlib `urllib`/`json`
  helpers, the `multipart` package) are modelled at their documented
  behaviour on the fragment the repository exercises; each such model is
  marked in its doc comment.
-/

set_option autoImplicit false

namespace GranianWeb

/-- Byte strings (Python `bytes`): one `Nat` per byte. -/
abbrev Bytes := List Nat

/-- ASCII upper-casing of one character, modelling Python `str.upper` on the
ASCII range (the only range the repository uses for HTTP methods). -/
def pyUpperChar (c : Char) : Char :=
  if 'a' ≤ c ∧ c ≤ 'z' then Char.ofNat (c.toNat - 32) else c

/-- Python `str.upper` (ASCII model). -/
def pyUpper (s : String) : String :=
  (s.data.map pyUpperChar).asString

/-- ASCII lower-casing of one character, modelling Python `str.lower` on the
ASCII range. -/
def pyLowerChar (c : Char) : Char :=
  if 'A' ≤ c ∧ c ≤ 'Z' then Char.ofNat (c.toNat + 32) else c

/-- Python `str.lower` (ASCII model), on character lists. -/
def pyLowerChars (cs : List Char) : List Char :=
  cs.map pyLowerChar

/-- Python `str.split(sep)` for a one-character separator: splits into the
(always non-empty) list of separator-free pieces; `"".split(sep) == [""]`. -/
def splitOnCh (sep : Char) : List Char → List (List Char)
  | [] => [[]]
  | c :: cs =>
    if c = sep then [] :: splitOnCh sep cs
    else
      match splitOnCh sep cs with
      | [] => [[c]]
      | s :: ss => (c :: s) :: ss

/-- Python `str.split(sep, 1)` restricted to the found case: splits at the
first occurrence of `sep`, returning `none` when `sep` does not occur. -/
def splitOnceCh (sep : Char) : List Char → Option (List Char × List Char)
  | [] => none
  | c :: cs =>
    if c = sep then some ([], cs)
    else (splitOnceCh sep cs).map (fun p => (c :: p.1, p.2))

/-- Python `str.strip(chars)` for the single strip character `ch`:
removes every leading and trailing occurrence. -/
def stripCh (ch : Char) (cs : List Char) : List Char :=
  ((cs.dropWhile (· = ch)).reverse.dropWhile (· = ch)).reverse

/-- Whitespace trimming of both ends (spaces and tabs), as Python
`str.strip()` does on the header fragments the repository handles. -/
def trimWs (cs : List Char) : List Char :=
  ((cs.dropWhile (fun c => c = ' ' ∨ c = '\t')).reverse.dropWhile
      (fun c => c = ' ' ∨ c = '\t')).reverse

/-- Consume the literal character sequence `l` from the front of `cs`,
returning the rest; `none` when `cs` does not start with `l`. -/
def chopLit : List Char → List Char → Option (List Char)
  | [], cs => some cs
  | _ :: _, [] => none
  | l :: ls, c :: cs => if l = c then chopLit ls cs else none

/-- Python exceptions raised by the embedded code. -/
inductive PyErr where
  /-- TypeError (for example a non-callable handler). -/
  | typeError
  /-- ValueError with its message (duplicate route, body too large,
  missing multipart boundary, JSON decode failure). -/
  | valueError (msg : String)
  /-- KeyError for the given missing key. -/
  | keyError (key : String)
  /-- AttributeError (an object lacking a requested attribute). -/
  | attributeError
  /-- LookupError (unknown text codec). -/
  | lookupError
  /-- UnicodeDecodeError from strict bytes decoding. -/
  | unicodeError
  /-- re.error raised while compiling a route pattern. -/
  | reError
  deriving DecidableEq, Repr

/-- Dynamic Python values produced by the body/args decoding pipeline. -/
inductive PVal where
  /-- Python None. -/
  | vnone
  /-- A Python str. -/
  | vstr (s : String)
  /-- A Python bytes object. -/
  | vbytes (b : Bytes)
  /-- A Python bool. -/
  | vbool (b : Bool)
  /-- A Python int. -/
  | vint (n : Int)
  /-- A Python list. -/
  | vlist (xs : List PVal)
  /-- A Python dict with str keys, in insertion order. -/
  | vdict (kvs : List (String × PVal))
  /-- The unawaited asynchronous generator object obtained by calling
  `util.parse_qs` on the given string argument: calling an async generator
  function does not run its body, it only packages the argument. -/
  | qsGen (arg : String)

/-- Python `x is None`, the memoization test used by the context accessors:
true exactly on the `vnone` value. -/
def PVal.isNone : PVal → Bool
  | .vnone => true
  | _ => false

/-- True exactly for the bytes `0x80`–`0xBF`, the UTF-8 continuation range. -/
def utf8Cont (b : Nat) : Bool :=
  0x80 ≤ b ∧ b ≤ 0xBF

/-- Strict UTF-8 decoding of a byte string into code points, modelling
Python `bytes.decode("utf-8")`; `none` models `UnicodeDecodeError`.
Overlong encodings, surrogates and out-of-range values are rejected,
as CPython rejects them. -/
def utf8Decode : Bytes → Option (List Char)
  | [] => some []
  | b :: bs =>
    if b < 0x80 then
      (utf8Decode bs).map (Char.ofNat b :: ·)
    else if 0xC2 ≤ b ∧ b ≤ 0xDF then
      match bs with
      | b1 :: bs1 =>
        if utf8Cont b1 then
          (utf8Decode bs1).map (Char.ofNat ((b - 0xC0) * 64 + (b1 - 0x80)) :: ·)
        else none
      | [] => none
    else if 0xE0 ≤ b ∧ b ≤ 0xEF then
      match bs with
      | b1 :: b2 :: bs2 =>
        let okB1 :=
          (b = 0xE0 ∧ 0xA0 ≤ b1 ∧ b1 ≤ 0xBF) ∨
          (b = 0xED ∧ 0x80 ≤ b1 ∧ b1 ≤ 0x9F) ∨
          (b ≠ 0xE0 ∧ b ≠ 0xED ∧ utf8Cont b1)
        if okB1 ∧ utf8Cont b2 then
          (utf8Decode bs2).map
            (Char.ofNat ((b - 0xE0) * 4096 + (b1 - 0x80) * 64 + (b2 - 0x80)) :: ·)
        else none
      | _ => none
    else if 0xF0 ≤ b ∧ b ≤ 0xF4 then
      match bs with
      | b1 :: b2 :: b3 :: bs3 =>
        let okB1 :=
          (b = 0xF0 ∧ 0x90 ≤ b1 ∧ b1 ≤ 0xBF) ∨
          (b = 0xF4 ∧ 0x80 ≤ b1 ∧ b1 ≤ 0x8F) ∨
          (b ≠ 0xF0 ∧ b ≠ 0xF4 ∧ utf8Cont b1)
        if okB1 ∧ utf8Cont b2 ∧ utf8Cont b3 then
          (utf8Decode bs3).map
            (Char.ofNat
              ((b - 0xF0) * 262144 + (b1 - 0x80) * 4096 +
                (b2 - 0x80) * 64 + (b3 - 0x80)) :: ·)
        else none
      | _ => none
    else none

/-- Lossy UTF-8 decoding, modelling Python
`bytes.decode("utf-8", errors="replace")`: an undecodable byte yields the
replacement character U+FFFD and decoding continues (CPython may group
several invalid bytes under a single replacement; this model replaces
per leading byte, which coincides with CPython on every valid input). -/
def utf8DecodeReplace : Bytes → List Char
  | [] => []
  | b :: bs =>
    if b < 0x80 then
      Char.ofNat b :: utf8DecodeReplace bs
    else if 0xC2 ≤ b ∧ b ≤ 0xDF then
      match bs with
      | b1 :: bs1 =>
        if utf8Cont b1 then
          Char.ofNat ((b - 0xC0) * 64 + (b1 - 0x80)) :: utf8DecodeReplace bs1
        else Char.ofNat 0xFFFD :: utf8DecodeReplace (b1 :: bs1)
      | [] => [Char.ofNat 0xFFFD]
    else if 0xE0 ≤ b ∧ b ≤ 0xEF then
      match bs with
      | b1 :: b2 :: bs2 =>
        let okB1 :=
          (b = 0xE0 ∧ 0xA0 ≤ b1 ∧ b1 ≤ 0xBF) ∨
          (b = 0xED ∧ 0x80 ≤ b1 ∧ b1 ≤ 0x9F) ∨
          (b ≠ 0xE0 ∧ b ≠ 0xED ∧ utf8Cont b1)
        if okB1 ∧ utf8Cont b2 then
          Char.ofNat ((b - 0xE0) * 4096 + (b1 - 0x80) * 64 + (b2 - 0x80)) ::
            utf8DecodeReplace bs2
        else Char.ofNat 0xFFFD :: utf8DecodeReplace (b1 :: b2 :: bs2)
      | [b1] => Char.ofNat 0xFFFD :: utf8DecodeReplace [b1]
      | [] => [Char.ofNat 0xFFFD]
    else if 0xF0 ≤ b ∧ b ≤ 0xF4 then
      match bs with
      | b1 :: b2 :: b3 :: bs3 =>
        let okB1 :=
          (b = 0xF0 ∧ 0x90 ≤ b1 ∧ b1 ≤ 0xBF) ∨
          (b = 0xF4 ∧ 0x80 ≤ b1 ∧ b1 ≤ 0x8F) ∨
          (b ≠ 0xF0 ∧ b ≠ 0xF4 ∧ utf8Cont b1)
        if okB1 ∧ utf8Cont b2 ∧ utf8Cont b3 then
          Char.ofNat
              ((b - 0xF0) * 262144 + (b1 - 0x80) * 4096 +
                (b2 - 0x80) * 64 + (b3 - 0x80)) ::
            utf8DecodeReplace bs3
        else Char.ofNat 0xFFFD :: utf8DecodeReplace (b1 :: b2 :: b3 :: bs3)
      | [b1, b2] => Char.ofNat 0xFFFD :: utf8DecodeReplace [b1, b2]
      | [b1] => Char.ofNat 0xFFFD :: utf8DecodeReplace [b1]
      | [] => [Char.ofNat 0xFFFD]
    else Char.ofNat 0xFFFD :: utf8DecodeReplace bs

/-- UTF-8 encoding of one code point. -/
def utf8EncodeChar (c : Char) : Bytes :=
  let n := c.toNat
  if n < 0x80 then [n]
  else if n < 0x800 then [0xC0 + n / 64, 0x80 + n % 64]
  else if n < 0x10000 then
    [0xE0 + n / 4096, 0x80 + n / 64 % 64, 0x80 + n % 64]
  else
    [0xF0 + n / 262144, 0x80 + n / 4096 % 64, 0x80 + n / 64 % 64, 0x80 + n % 64]

/-- UTF-8 encoding of a string, modelling Python `str.encode("utf-8")`. -/
def utf8Encode (s : String) : Bytes :=
  s.data.flatMap utf8EncodeChar

/-- Decoding a byte string with a named charset, modelling Python
`bytes.decode(charset)`. The repository only ever reaches this with the
default charset; the model therefore implements the UTF-8 codec (under its
usual aliases) and maps any other codec name to the `LookupError` CPython
raises for an unknown encoding. -/
def pyDecode (charset : String) (b : Bytes) : Except PyErr String :=
  let norm := (pyLowerChars charset.data).asString
  if norm = "utf-8" ∨ norm = "utf8" ∨ norm = "utf_8" ∨ norm = "u8" then
    match utf8Decode b with
    | some cs => .ok cs.asString
    | none => .error .unicodeError
  else .error .lookupError

/-! Association lists standing for Python dicts (insertion order preserved,
keys unique by construction at the use sites). -/

/-- Lookup in an insertion-ordered association list (Python `dict.get`). -/
def alistGet {α : Type} : List (String × α) → String → Option α
  | [], _ => none
  | (k0, v0) :: rest, k => if k0 = k then some v0 else alistGet rest k

/-- In-place update of an existing key, appending when absent
(Python `d[k] = v` on a dict). -/
def alistSet {α : Type} : List (String × α) → String → α → List (String × α)
  | [], k, v => [(k, v)]
  | (k0, v0) :: rest, k, v =>
    if k0 = k then (k0, v) :: rest else (k0, v0) :: alistSet rest k v

/-! Model of the stdlib `urllib.parse` helpers used by `granian_web.util`. -/

/-- Value of a hexadecimal digit character. -/
def hexVal (c : Char) : Option Nat :=
  if '0' ≤ c ∧ c ≤ '9' then some (c.toNat - 48)
  else if 'a' ≤ c ∧ c ≤ 'f' then some (c.toNat - 87)
  else if 'A' ≤ c ∧ c ≤ 'F' then some (c.toNat - 55)
  else none

/-- Consume the maximal run of valid percent escapes from the front of the
input, returning the decoded bytes and the remainder. -/
def grabPctBytes : List Char → Bytes × List Char
  | '%' :: h1 :: h2 :: rest =>
    match hexVal h1, hexVal h2 with
    | some a, some b =>
      let p := grabPctBytes rest
      ((a * 16 + b) :: p.1, p.2)
    | _, _ => ([], '%' :: h1 :: h2 :: rest)
  | cs => ([], cs)

/-- Worker for `pyUnquote`; `fuel` only certifies termination and is
instantiated with the input length, which always suffices because every
step consumes at least one character. -/
def unquoteGo : Nat → List Char → List Char
  | 0, cs => cs
  | _ + 1, [] => []
  | f + 1, '%' :: h1 :: h2 :: rest =>
    match hexVal h1, hexVal h2 with
    | some _, some _ =>
      let p := grabPctBytes ('%' :: h1 :: h2 :: rest)
      utf8DecodeReplace p.1 ++ unquoteGo f p.2
    | _, _ => '%' :: unquoteGo f (h1 :: h2 :: rest)
  | f + 1, c :: rest => c :: unquoteGo f rest

/-- Model of `urllib.parse.unquote` with its defaults: maximal runs of
percent escapes are decoded as UTF-8 bytes with replacement on error, all
other characters (and invalid escapes) pass through unchanged. -/
def pyUnquote (cs : List Char) : List Char :=
  unquoteGo cs.length cs

/-- Plus-to-space substitution applied by `urllib.parse.parse_qsl` before
unquoting each name and value. -/
def plusToSpace (cs : List Char) : List Char :=
  cs.map (fun c => if c = '+' then ' ' else c)

/-- Model of `urllib.parse.parse_qsl(qs)` with default arguments: split on
`&`, skip empty pieces, skip pieces without `=` and pieces with an empty
value (keep_blank_values is false), unquote names and values. -/
def parse_qsl (qs : List Char) : List (String × String) :=
  let pieces := if qs = [] then [] else splitOnCh '&' qs
  pieces.filterMap fun nv =>
    if nv = [] then none
    else
      match splitOnceCh '=' nv with
      | none => none
      | some (n, v) =>
        if v = [] then none
        else some ((pyUnquote (plusToSpace n)).asString,
                   (pyUnquote (plusToSpace v)).asString)

/-- Model of `urllib.parse.parse_qs`: group the pair list into an
insertion-ordered dict of value lists. -/
def qsTally (pairs : List (String × String)) : List (String × List String) :=
  pairs.foldl
    (fun acc kv =>
      match alistGet acc kv.1 with
      | some vs => alistSet acc kv.1 (vs ++ [kv.2])
      | none => acc ++ [(kv.1, [kv.2])])
    []

/-- The dictionary yielded by `util.parse_qs` (util.py lines 11-13) when its
argument is a string: the urllib `parse_qs` result with the comprehension
`{k: v[0] if len(v) == 1 else v}` applied, so a key seen once maps to a
scalar string and a repeated key to the ordered list of its values. -/
def util_parse_qs_yield (q : String) : PVal :=
  .vdict ((qsTally (parse_qsl q.data)).map fun kv =>
    (kv.1,
      match kv.2 with
      | [v] => .vstr v
      | vs => .vlist (vs.map .vstr)))

/-- The argument actually passed to `util.parse_qs` at its two call sites:
either a string (app.py passes `request.query_string`) or the `Context`
object itself (wrapper.py line 26 passes `self`). -/
inductive QsArg where
  /-- A Python str argument. -/
  | ofStr (s : String)
  /-- The request `Context` object. -/
  | ofCtx
  deriving DecidableEq, Repr

/-- First value produced by the async generator `util.parse_qs(arg)` once it
is actually driven. A string argument parses as a query string. For any
other object `urllib.parse.parse_qs` coerces its argument by calling
`arg.decode(...)` (see `_decode_args` in `urllib.parse`), so the `Context`
object — which has no `decode` attribute — raises `AttributeError`. -/
def util_parse_qs_dyn : QsArg → Except PyErr PVal
  | .ofStr s => .ok (util_parse_qs_yield s)
  | .ofCtx => .error .attributeError

/-! Model of `granian_web.util.read_all` (util.py lines 15-21). -/

/-- The default body size limit, `MAX_BODY = 10 * 1024 * 1024`. -/
def MAX_BODY : Nat := 10 * 1024 * 1024

/-- Worker for `read_all`: accumulates chunks into `buf`; after appending a
chunk, an accumulated size above `limit` raises
`ValueError("request body too large")`. The second component is the list of
chunks left unconsumed on the stream. -/
def read_allGo (buf : Bytes) : List Bytes → Nat → Except PyErr Bytes × List Bytes
  | [], _ => (.ok buf, [])
  | c :: rest, limit =>
    let buf1 := buf ++ c
    if limit < buf1.length then
      (.error (.valueError "request body too large"), rest)
    else read_allGo buf1 rest limit

/-- Result of `read_all` on a chunk stream: the concatenation of all chunks,
or the body-too-large error. -/
def read_all (chunks : List Bytes) (limit : Nat) : Except PyErr Bytes :=
  (read_allGo [] chunks limit).1

/-! Model of the `multipart` package helpers used by util.py. -/

/-- Strip one pair of surrounding double quotes, as the options-header parser
of the `multipart` package does on parameter values. -/
def stripQuotes (cs : List Char) : List Char :=
  match cs with
  | '"' :: rest =>
    if rest ≠ [] ∧ rest.getLast? = some '"' then rest.dropLast else cs
  | _ => cs

/-- Model of `multipart.parse_options_header` on the well-formed headers the
repository handles: the part before the first `;` is the lower-cased value;
the remaining `;`-separated pieces of the form `k=v` become parameters with
lower-cased keys and unquoted values. -/
def parse_options_header (s : String) : String × List (String × String) :=
  match splitOnCh ';' s.data with
  | [] => ("", [])
  | v :: ps =>
    ((pyLowerChars (trimWs v)).asString,
      ps.filterMap fun p =>
        match splitOnceCh '=' p with
        | none => none
        | some (k, val) =>
          some ((pyLowerChars (trimWs k)).asString,
                (stripQuotes (trimWs val)).asString))

/-- One part as produced by `multipart.MultipartParser(...).parts()`: its
header dict, the filename and content type attributes the parser derived,
and the raw payload bytes. The byte-level splitting of the body into parts
is the external package's job and is treated as an oracle; the repository
code consumes this interface. -/
structure Part where
  /-- The part's headers (exact-case keys, as stored by the parser). -/
  headers : List (String × String)
  /-- The parser's `part.filename` attribute. -/
  filename : String := ""
  /-- The parser's `part.content_type` attribute. -/
  contentType : String := ""
  /-- The parser's `part.raw` payload. -/
  raw : Bytes := []

/-- Python `part.headers["Content-Disposition"]`: a missing key raises
`KeyError`. -/
def headersItem (hs : List (String × String)) (k : String) : Except PyErr String :=
  match alistGet hs k with
  | some v => .ok v
  | none => .error (.keyError k)

/-- The (name, value) contribution of one part, following util.py lines
52-67: the Content-Disposition header is parsed for options; its `name`
parameter is mandatory (`disp_params["name"]` raises `KeyError` otherwise);
a part with a `filename` or `filename*` parameter becomes the file dict
`{"filename": ..., "content-type": ..., "content": ...}`, any other part
becomes its raw payload decoded as UTF-8 with replacement. -/
def partEntry (part : Part) : Except PyErr (String × PVal) :=
  match headersItem part.headers "Content-Disposition" with
  | .error e => .error e
  | .ok cd =>
    match alistGet (parse_options_header cd).2 "name" with
    | none => .error (.keyError "name")
    | some name =>
      if (alistGet (parse_options_header cd).2 "filename").isSome ∨
          (alistGet (parse_options_header cd).2 "filename*").isSome then
        .ok (name,
          .vdict [("filename", .vstr part.filename),
                  ("content-type", .vstr part.contentType),
                  ("content", .vbytes part.raw)])
      else
        .ok (name, .vstr (utf8DecodeReplace part.raw).asString)

/-- Accumulation loop of `util.parse_multipart` (util.py lines 69-77): the
first occurrence of a name stores its value directly, a second occurrence
wraps the stored value into a two-element list, later occurrences append. -/
def mpAccum (temp : List (String × PVal)) (name : String) (value : PVal) :
    List (String × PVal) :=
  match alistGet temp name with
  | none => temp ++ [(name, value)]
  | some (.vlist xs) => alistSet temp name (.vlist (xs ++ [value]))
  | some old => alistSet temp name (.vlist [old, value])

/-- Worker folding parts into the accumulated dict. -/
def parse_multipartGo (temp : List (String × PVal)) :
    List Part → Except PyErr (List (String × PVal))
  | [] => .ok temp
  | part :: rest =>
    match partEntry part with
    | .error e => .error e
    | .ok e => parse_multipartGo (mpAccum temp e.1 e.2) rest

/-- Model of `util.parse_multipart` (util.py lines 47-79), taking the part
list the external `MultipartParser` extracted from the body and boundary. -/
def parse_multipart (parts : List Part) : Except PyErr (List (String × PVal)) :=
  parse_multipartGo [] parts

/-! Model of stdlib `json.loads` on the JSON fragment relevant here:
null, booleans, integers, strings (with the standard single-character
escapes and non-surrogate \uXXXX escapes), arrays and objects. Floating
point literals are not modelled — no claim touches them — and surface as a
decode error, as does every malformed document. `json.JSONDecodeError`
subclasses ValueError, so decode failures are `PyErr.valueError`. -/

/-- Skip JSON whitespace. -/
def jsonSkipWs (cs : List Char) : List Char :=
  cs.dropWhile (fun c => c = ' ' ∨ c = '\t' ∨ c = '\n' ∨ c = '\r')

/-- Parse the remainder of a JSON string literal (the opening quote already
consumed), returning its characters and the rest of the input. -/
def jsonStringRest : List Char → Except PyErr (List Char × List Char)
  | [] => .error (.valueError "unterminated string")
  | '"' :: rest => .ok ([], rest)
  | '\\' :: 'u' :: h1 :: h2 :: h3 :: h4 :: rest =>
    match hexVal h1, hexVal h2, hexVal h3, hexVal h4 with
    | some a, some b, some c, some d =>
      (jsonStringRest rest).map fun p =>
        (Char.ofNat (a * 4096 + b * 256 + c * 16 + d) :: p.1, p.2)
    | _, _, _, _ => .error (.valueError "invalid unicode escape")
  | '\\' :: e :: rest =>
    let esc : Option Char :=
      if e = '"' then some '"'
      else if e = '\\' then some '\\'
      else if e = '/' then some '/'
      else if e = 'b' then some (Char.ofNat 8)
      else if e = 'f' then some (Char.ofNat 12)
      else if e = 'n' then some '\n'
      else if e = 'r' then some (Char.ofNat 13)
      else if e = 't' then some '\t'
      else none
    match esc with
    | some c => (jsonStringRest rest).map fun p => (c :: p.1, p.2)
    | none => .error (.valueError "invalid escape")
  | c :: rest => (jsonStringRest rest).map fun p => (c :: p.1, p.2)

/-- Parse a run of decimal digits as a natural number. -/
def jsonDigits (cs : List Char) : Option (Nat × List Char) :=
  let ds := cs.takeWhile (fun c => '0' ≤ c ∧ c ≤ '9')
  if ds = [] then none
  else some (ds.foldl (fun n c => n * 10 + (c.toNat - 48)) 0,
             cs.dropWhile (fun c => '0' ≤ c ∧ c ≤ '9'))

mutual

/-- Parse one JSON value; `fuel` certifies termination and is instantiated
with the input length, which suffices because every recursive call follows
the consumption of at least one character. -/
def jsonVal : Nat → List Char → Except PyErr (PVal × List Char)
  | 0, _ => .error (.valueError "Expecting value")
  | fuel + 1, cs =>
    match jsonSkipWs cs with
    | 'n' :: 'u' :: 'l' :: 'l' :: rest => .ok (.vnone, rest)
    | 't' :: 'r' :: 'u' :: 'e' :: rest => .ok (.vbool true, rest)
    | 'f' :: 'a' :: 'l' :: 's' :: 'e' :: rest => .ok (.vbool false, rest)
    | '"' :: rest => (jsonStringRest rest).map fun p => (.vstr p.1.asString, p.2)
    | '[' :: rest =>
      (match jsonSkipWs rest with
       | ']' :: rest2 => .ok (.vlist [], rest2)
       | _ => (jsonArrItems fuel rest).map fun p => (.vlist p.1, p.2))
    | '\x7b' :: rest =>
      (match jsonSkipWs rest with
       | '\x7d' :: rest2 => .ok (.vdict [], rest2)
       | _ => (jsonObjItems fuel rest).map fun p => (.vdict p.1, p.2))
    | '-' :: rest =>
      (match jsonDigits rest with
       | some (n, rest2) => .ok (.vint (-(n : Int)), rest2)
       | none => .error (.valueError "Expecting value"))
    | cs2 =>
      (match jsonDigits cs2 with
       | some (n, rest2) => .ok (.vint (n : Int), rest2)
       | none => .error (.valueError "Expecting value"))

/-- Parse the comma-separated items of a non-empty JSON array, including the
closing bracket. -/
def jsonArrItems : Nat → List Char → Except PyErr (List PVal × List Char)
  | 0, _ => .error (.valueError "Expecting value")
  | fuel + 1, cs => do
    let (v, rest) ← jsonVal fuel cs
    match jsonSkipWs rest with
    | ',' :: rest2 =>
      let (vs, rest3) ← jsonArrItems fuel rest2
      .ok (v :: vs, rest3)
    | ']' :: rest2 => .ok ([v], rest2)
    | _ => .error (.valueError "Expecting delimiter")

/-- Parse the comma-separated members of a non-empty JSON object, including
the closing brace. -/
def jsonObjItems : Nat → List Char → Except PyErr (List (String × PVal) × List Char)
  | 0, _ => .error (.valueError "Expecting value")
  | fuel + 1, cs =>
    match jsonSkipWs cs with
    | '"' :: rest => do
      let (key, rest1) ← jsonStringRest rest
      match jsonSkipWs rest1 with
      | ':' :: rest2 => do
        let (v, rest3) ← jsonVal fuel rest2
        match jsonSkipWs rest3 with
        | ',' :: rest4 =>
          let (kvs, rest5) ← jsonObjItems fuel rest4
          .ok ((key.asString, v) :: kvs, rest5)
        | '\x7d' :: rest4 => .ok ([(key.asString, v)], rest4)
        | _ => .error (.valueError "Expecting delimiter")
      | _ => .error (.valueError "Expecting colon")
    | _ => .error (.valueError "Expecting property name")

end

/-- Model of `json.loads` on a string: parse one value and require only
whitespace after it. -/
def jsonLoads (s : String) : Except PyErr PVal :=
  match jsonVal (s.data.length + 1) s.data with
  | .error e => .error e
  | .ok (v, rest) =>
    if jsonSkipWs rest = [] then .ok v else .error (.valueError "Extra data")

/-! Model of `App._compile_parametric` (wrapper.py lines 226-236) and of the
Python regular expression it builds. The compiled pattern always has the
shape `^/t1/t2/.../tn$` where each `ti` is either `re.escape(segment)` (an
exact-text literal) or a named group `(?P<name>[^/]+)`. -/

/-- One token of a compiled path pattern. -/
inductive Tok where
  /-- An escaped literal segment, matched by exact text. -/
  | lit (s : List Char)
  /-- A named single-segment capture `(?P<name>[^/]+)`. -/
  | cap (name : List Char)
  deriving DecidableEq, Repr

/-- Tokenization of one template segment: exactly the test
`segment.startswith("\x7b") and segment.endswith("\x7d")` of the source. -/
def segTok (seg : List Char) : Tok :=
  if seg.head? = some '\x7b' ∧ seg.getLast? = some '\x7d' then
    .cap (seg.drop 1).dropLast
  else .lit seg

/-- Valid Python regular-expression group name (an identifier, modelled on
the ASCII range the repository uses). -/
def validGroupName (name : List Char) : Bool :=
  match name with
  | [] => false
  | c :: rest =>
    (c = '_' ∨ ('a' ≤ c ∧ c ≤ 'z') ∨ ('A' ≤ c ∧ c ≤ 'Z')) ∧
      rest.all fun d =>
        d = '_' ∨ ('a' ≤ d ∧ d ≤ 'z') ∨ ('A' ≤ d ∧ d ≤ 'Z') ∨ ('0' ≤ d ∧ d ≤ '9')

/-- The capture names of a token list, in group-definition order. -/
def capNames : List Tok → List (List Char)
  | [] => []
  | .lit _ :: rest => capNames rest
  | .cap n :: rest => n :: capNames rest

/-- Model of `App._compile_parametric`: strip slashes, split on `/`, turn
each segment into a token. `re.compile` raises `re.error` when a group name
is not a valid identifier or when two groups share a name; the model
performs the same validation. -/
def compileParametric (path : String) : Except PyErr (List Tok) :=
  if (capNames ((splitOnCh '/' (stripCh '/' path.data)).map segTok)).all
        validGroupName ∧
      (capNames ((splitOnCh '/' (stripCh '/' path.data)).map segTok)).Nodup then
    .ok ((splitOnCh '/' (stripCh '/' path.data)).map segTok)
  else .error .reError

/-- End-of-input test of the Python `$` anchor (without MULTILINE): it
matches at the very end of the string and also just before a single final
newline. -/
def dollarOk (cs : List Char) : Bool :=
  cs = [] ∨ cs = ['\n']

/-- Matching of the token sequence against the characters following the
initial `/`, as the Python regex engine executes `t1/t2/.../tn$`:
a literal consumes its exact text, a capture `[^/]+` consumes greedily up
to the next `/` (or, in final position, to the end, where the greedy
attempt including a final newline is preferred — exactly the engine's
backtracking order), and separators `/` are forced between tokens. -/
def matchToks : List Tok → List Char → Option (List (String × String))
  | [], cs => if dollarOk cs then some [] else none
  | [.lit l], cs =>
    (match chopLit l cs with
     | some rest => if dollarOk rest then some [] else none
     | none => none)
  | [.cap n], cs =>
    if cs ≠ [] ∧ cs.all (· ≠ '/') then some [(n.asString, cs.asString)] else none
  | .lit l :: t :: ts, cs =>
    (match chopLit l cs with
     | some ('/' :: rest) => matchToks (t :: ts) rest
     | _ => none)
  | .cap n :: t :: ts, cs =>
    let p := cs.takeWhile (· ≠ '/')
    if p = [] then none
    else
      match cs.dropWhile (· ≠ '/') with
      | '/' :: rest =>
        (matchToks (t :: ts) rest).map fun gd => (n.asString, p.asString) :: gd
      | _ => none

/-- Model of `regex.match(path)` for a compiled pattern
`^/t1/.../tn$` followed by `match.groupdict()`: `none` when the pattern
does not match, otherwise the name-to-text mapping of the captures in
group order. -/
def reMatch (toks : List Tok) (path : String) : Option (List (String × String)) :=
  match path.data with
  | '/' :: cs => matchToks toks cs
  | _ => none

/-! Model of the `App` route table (wrapper.py lines 55-137). -/

/-- A registered handler object; `callable` models Python's
`callable(func)` test, `id` distinguishes handlers. -/
structure Handler where
  /-- Identity of the handler function. -/
  id : Nat
  /-- Whether `callable(func)` holds. -/
  callable : Bool := true
  deriving DecidableEq, Repr

/-- The routing state of an `App`: the static table (a dict keyed by
`(path, method)`), the parametric list in registration order, and the
optional fallback slot. -/
structure AppState where
  /-- `self._static`, in insertion order with unique keys. -/
  static : List ((String × String) × Handler) := []
  /-- `self._parametric`: compiled pattern, upper-cased method, handler. -/
  parametric : List (List Tok × String × Handler) := []
  /-- `self._fallback`: upper-cased method and handler. -/
  fallback : Option (String × Handler) := none
  deriving Repr

/-- Lookup in the static table dict by `(path, method)` key. -/
def staticGet (d : List ((String × String) × Handler)) (k : String × String) :
    Option Handler :=
  (d.find? (fun e => e.1 = k)).map (·.2)

/-- Model of `App.register` (wrapper.py lines 82-104): reject non-callable
handlers with `TypeError`; upper-case the method; `path == "*"` overwrites
the fallback slot; a `{`-free path is static and a duplicate
`(path, method)` key raises `ValueError`; otherwise the compiled pattern is
appended to the parametric list. -/
def register (a : AppState) (path : String) (func : Handler)
    (method : String := "GET") : Except PyErr AppState :=
  if ¬ func.callable then .error .typeError
  else if path = "*" then .ok { a with fallback := some (pyUpper method, func) }
  else if ¬ path.data.contains '\x7b' then
    if (staticGet a.static (path, pyUpper method)).isSome then
      .error (.valueError "already registered")
    else .ok { a with static := a.static ++ [((path, pyUpper method), func)] }
  else
    match compileParametric path with
    | .error e => .error e
    | .ok toks =>
      .ok { a with parametric := a.parametric ++ [(toks, pyUpper method, func)] }

/-- Scan of the parametric list (wrapper.py lines 119-126): first entry
whose method equals the request method and whose pattern matches, with its
extracted captures. -/
def findParametric :
    List (List Tok × String × Handler) → String → String →
      Option (Handler × List (String × String))
  | [], _, _ => none
  | (toks, mth, fn) :: rest, path, method =>
    if mth ≠ method then findParametric rest path method
    else
      match reMatch toks path with
      | some gd => some (fn, gd)
      | none => findParametric rest path method

/-- Outcome of route resolution: a handler with its keyword parameters, or a
directly produced plain-text response. -/
inductive Resolution where
  /-- A handler was selected, to be invoked with the given named captures
  (empty for static and fallback routes). -/
  | found (h : Handler) (params : List (String × String))
  /-- No route matched: a plain-text response with this status and body. -/
  | response (status : Nat) (body : String)
  deriving DecidableEq, Repr

/-- Model of the routing cascade of `App.handler` (wrapper.py lines
106-132): static lookup by `(path, method)` first, then the parametric scan
in registration order, then the fallback when its method equals the request
method or is `*`, and finally `PlainTextResponse("Not Found", 404)`. -/
def resolve (a : AppState) (path method0 : String) : Resolution :=
  match staticGet a.static (path, pyUpper method0) with
  | some f => .found f []
  | none =>
    match findParametric a.parametric path (pyUpper method0) with
    | some (f, gd) => .found f gd
    | none =>
      match a.fallback with
      | some (m, f) =>
        if m = pyUpper method0 ∨ m = "*" then .found f []
        else .response 404 "Not Found"
      | none => .response 404 "Not Found"

/-! Model of the request `Context` (wrapper.py lines 10-33) and of
`util.parse_body` (util.py lines 23-44). -/

/-- The request object delivered by the transport, reduced to what the body
pipeline reads: its header dict. -/
structure Request where
  /-- The request headers. -/
  headers : List (String × String)

/-- The per-request context state: the request, the remaining chunk stream
of the transport protocol, and the two memoization attributes `_body` and
`_args` (Python initializes both to None). -/
structure Ctx where
  /-- `self.request`. -/
  request : Request
  /-- The chunks the transport will still deliver. -/
  stream : List Bytes
  /-- `self._body`. -/
  bodyCache : PVal
  /-- `self._args`. -/
  argsCache : PVal

/-- `Context.__init__`: both caches start as None. -/
def mkCtx (request : Request) (proto : List Bytes) : Ctx :=
  { request := request, stream := proto, bodyCache := .vnone, argsCache := .vnone }

/-- Stateful `read_all(context.proto)` with the default limit: the result,
and the context with the consumed chunks removed from its stream. -/
def read_allCtx (ctx : Ctx) : Except PyErr Bytes × Ctx :=
  let p := read_allGo [] ctx.stream MAX_BODY
  (p.1, { ctx with stream := p.2 })

/-- The effective Content-Type header:
`context.request.headers.get("content-type", "") or "application/octet-stream"`
(util.py line 24) — note `or` replaces both a missing and an empty header. -/
def contentTypeOf (ctx : Ctx) : String :=
  let raw := (alistGet ctx.request.headers "content-type").getD ""
  if raw = "" then "application/octet-stream" else raw

/-- The first value yielded by the async generator `parse_body(context)`
(util.py lines 23-44), together with the context state after it; errors
raised before the first yield propagate. Dispatch is on the MIME portion of
the Content-Type. The `split` argument is the external
`multipart.MultipartParser`, modelled as an oracle turning body bytes and a
boundary into parts. Note the urlencoded branch: the source executes
`yield parse_qs(raw_body.decode(charset))`, and calling the async generator
function `parse_qs` only packages its argument, so the yielded value is the
generator object, not the parsed mapping. -/
def parse_body_first (split : Bytes → String → List Part) (ctx : Ctx) :
    Except PyErr PVal × Ctx :=
  let ct := parse_options_header (contentTypeOf ctx)
  let mime := ct.1
  let params := ct.2
  if mime = "application/json" then
    match read_allCtx ctx with
    | (.error e, ctx1) => (.error e, ctx1)
    | (.ok raw, ctx1) =>
      let charset := (alistGet params "charset").getD "utf-8"
      match pyDecode charset raw with
      | .error e => (.error e, ctx1)
      | .ok text =>
        match jsonLoads text with
        | .error e => (.error e, ctx1)
        | .ok v => (.ok v, ctx1)
  else if mime = "application/x-www-form-urlencoded" then
    match read_allCtx ctx with
    | (.error e, ctx1) => (.error e, ctx1)
    | (.ok raw, ctx1) =>
      let charset := (alistGet params "charset").getD "utf-8"
      match pyDecode charset raw with
      | .error e => (.error e, ctx1)
      | .ok text => (.ok (.qsGen text), ctx1)
  else if mime = "multipart/form-data" then
    match alistGet params "boundary" with
    | none => (.error (.valueError "multipart request missing boundary"), ctx)
    | some boundary =>
      if boundary = "" then
        (.error (.valueError "multipart request missing boundary"), ctx)
      else
        match read_allCtx ctx with
        | (.error e, ctx1) => (.error e, ctx1)
        | (.ok raw, ctx1) =>
          match parse_multipart (split raw boundary) with
          | .error e => (.error e, ctx1)
          | .ok kvs => (.ok (.vdict kvs), ctx1)
  else
    match read_allCtx ctx with
    | (.error e, ctx1) => (.error e, ctx1)
    | (.ok raw, ctx1) => (.ok (.vbytes raw), ctx1)

/-- The `Context.body` accessor (wrapper.py lines 17-21): when `self._body`
is None, decode via `anext(parse_body(self))` and store the result;
otherwise return the cached value and leave all state untouched. -/
def bodyAccess (split : Bytes → String → List Part) (ctx : Ctx) :
    Except PyErr PVal × Ctx :=
  if ctx.bodyCache.isNone then
    match parse_body_first split ctx with
    | (.ok v, ctx1) => (.ok v, { ctx1 with bodyCache := v })
    | (.error e, ctx1) => (.error e, ctx1)
  else (.ok ctx.bodyCache, ctx)

/-- The `Context.args` accessor (wrapper.py lines 23-27): when `self._args`
is None, evaluate `anext(parse_qs(self))` — passing the context object
itself as the query string argument — and store the result. -/
def argsAccess (ctx : Ctx) : Except PyErr PVal × Ctx :=
  if ctx.argsCache.isNone then
    match util_parse_qs_dyn .ofCtx with
    | .ok v => (.ok v, { ctx with argsCache := v })
    | .error e => (.error e, ctx)
  else (.ok ctx.argsCache, ctx)

/-! Model of the response classes (responses.py) and of the translation step
of `App.__call__` (wrapper.py lines 139-211). -/

/-- A Python `str` or `bytes` payload, as stored in `Response.message`. -/
inductive Msg where
  /-- A str payload. -/
  | str (s : String)
  /-- A bytes payload. -/
  | bytes (b : Bytes)
  deriving DecidableEq, Repr

/-- The response objects of responses.py, with the constructor-established
field values: `PlainTextResponse` stores its message; `JSONResponse` stores
`json.dumps(data)` as its message (the model carries the dumped string);
`HTMLResponse` stores the literal message "OK" and keeps the markup in the
separate `html_content` field; `FileResponse` stores message "OK" and the
file path; `StreamResponse` stores message "" plus its content type; a bare
`Response` stores status and message. -/
inductive RespObj where
  /-- PlainTextResponse(message, status_code). -/
  | plainText (status : Nat) (message : Msg)
  /-- JSONResponse(data, status_code); `dumped` is `json.dumps(data)`. -/
  | jsonResp (status : Nat) (dumped : String)
  /-- HTMLResponse(html_content, status_code). -/
  | htmlResp (status : Nat) (htmlContent : Msg)
  /-- FileResponse(file_path, status_code). -/
  | fileResp (status : Nat) (filePath : String)
  /-- StreamResponse(body, status_code, content_type); the chunk producer
  itself is outside this model. -/
  | streamResp (status : Nat) (contentType : String)
  /-- Response(status_code, message). -/
  | base (status : Nat) (message : Msg)
  deriving DecidableEq, Repr

/-- The `status_code` attribute. -/
def RespObj.statusCode : RespObj → Nat
  | .plainText s _ => s
  | .jsonResp s _ => s
  | .htmlResp s _ => s
  | .fileResp s _ => s
  | .streamResp s _ => s
  | .base s _ => s

/-- The `message` attribute, as set by each constructor: note that
`HTMLResponse.__init__` calls `super().__init__(status_code, "OK")`, so its
message is the literal "OK", and similarly `FileResponse` ("OK") and
`StreamResponse` (""). -/
def RespObj.message : RespObj → Msg
  | .plainText _ m => m
  | .jsonResp _ d => .str d
  | .htmlResp _ _ => .str "OK"
  | .fileResp _ _ => .str "OK"
  | .streamResp _ _ => .str ""
  | .base _ m => m

/-- The `content_type` entry of `to_dict()`, when present: fixed per class,
absent for the bare `Response`. -/
def RespObj.toDictContentType : RespObj → Option String
  | .plainText _ _ => some "text/plain"
  | .jsonResp _ _ => some "application/json"
  | .htmlResp _ _ => some "text/html"
  | .fileResp _ _ => some "application/octet-stream"
  | .streamResp _ _ => some "application/octet-stream"
  | .base _ _ => none

/-- One call against the transport's response primitives. -/
inductive TransportCall where
  /-- `proto.response_bytes(status, headers, body)`. -/
  | respBytes (status : Nat) (headers : List (String × String)) (body : Bytes)
  /-- `proto.response_str(status, headers, body)`. -/
  | respStr (status : Nat) (headers : List (String × String)) (body : String)
  /-- `proto.response_file(status, headers, file)`. -/
  | respFile (status : Nat) (headers : List (String × String)) (file : String)
  /-- `proto.response_stream(status, headers)`; the subsequent chunk
  forwarding is outside this model. -/
  | respStream (status : Nat) (headers : List (String × String))
  deriving DecidableEq, Repr

/-- Python `path.split("/")[-1]`: the last `/`-separated piece. -/
def lastPathPiece (s : String) : String :=
  ((splitOnCh '/' s.data).getLastD []).asString

/-- The transport calls issued by the translation step of `App.__call__`
(wrapper.py lines 148-205) for a handler-returned response object:
`FileResponse` goes to the file primitive with fixed headers;
`StreamResponse` opens a stream; any other `Response` makes exactly one
call — the bytes primitive when `response.message` is bytes (content type
from `to_dict` with default "application/octet-stream"), otherwise the
string primitive (content type from `to_dict` with default "text/plain") —
with the response's status code and its `message` as the body. -/
def translate (r : RespObj) : List TransportCall :=
  match r with
  | .fileResp _ path =>
    [.respFile r.statusCode
      [("content-type", "application/octet-stream"),
       ("content-disposition",
         "attachment; filename=\"" ++ lastPathPiece path ++ "\"")]
      path]
  | .streamResp _ ct => [.respStream r.statusCode [("content-type", ct)]]
  | _ =>
    match r.message with
    | .bytes b =>
      [.respBytes r.statusCode
        [("content-type", (r.toDictContentType).getD "application/octet-stream")] b]
    | .str s =>
      [.respStr r.statusCode
        [("content-type", (r.toDictContentType).getD "text/plain")] s]

/-! Specification-side definitions used to compare the compiled-regex
matching with the specification's description of template matching, and
auxiliary definitions used to state the claims. -/

/-- A character sequence containing no `/`. -/
def slashFree (cs : List Char) : Bool :=
  cs.all (· ≠ '/')

/-- Every literal token of the list is a slash-free segment; this holds for
every compiled template because its literal tokens come from a split on
`/`. -/
def litsSlashFree : List Tok → Bool
  | [] => true
  | .lit s :: rest => slashFree s && litsSlashFree rest
  | .cap _ :: rest => litsSlashFree rest

/-- Modelled from the spec: segment-wise matching of a token list against a
path's segment list — "a segment of the exact form \x7bname\x7d matches
exactly one non-empty path segment containing no '/', any other segment
matches only by exact literal text equality", with equal segment counts
("a path with a different segment count never matches"), yielding the
capture mapping in order. -/
def specSegs : List Tok → List (List Char) → Option (List (String × String))
  | [], [] => some []
  | .lit l :: ts, s :: ss => if s = l then specSegs ts ss else none
  | .cap n :: ts, s :: ss =>
    if s ≠ [] ∧ slashFree s then
      (specSegs ts ss).map ((n.asString, s.asString) :: ·)
    else none
  | _, _ => none

/-- Modelled from the spec: whole-path structural matching — the path must
start with `/` and its `/`-separated segments must match the tokens
segment-wise. -/
def specPathMatch (toks : List Tok) (path : String) :
    Option (List (String × String)) :=
  match path.data with
  | '/' :: cs => specSegs toks (splitOnCh '/' cs)
  | _ => none

/-- Structural matching extended with the Python `$` allowance: when the
exact path does not match structurally, a path consisting of a structurally
matching path plus one final newline is also accepted. -/
def specMatchNL (toks : List Tok) (cs : List Char) :
    Option (List (String × String)) :=
  match specSegs toks (splitOnCh '/' cs) with
  | some gd => some gd
  | none =>
    if cs.getLast? = some '\n' then specSegs toks (splitOnCh '/' cs.dropLast)
    else none

/-- The (name, value) entries contributed by a part list, in part order;
errors as in `partEntry`. -/
def partsVals : List Part → Except PyErr (List (String × PVal))
  | [] => .ok []
  | p :: rest =>
    match partEntry p with
    | .error e => .error e
    | .ok e =>
      match partsVals rest with
      | .error e2 => .error e2
      | .ok es => .ok (e :: es)

/-- The values carried by entries with the given name, in order. -/
def valuesFor (name : String) (pvs : List (String × PVal)) : List PVal :=
  (pvs.filter (·.1 = name)).map (·.2)

/-- How `parse_multipart` renders the ordered value list of one field name:
absent for no occurrence, the value itself for a single occurrence, the
ordered list for repeated occurrences. -/
def fieldEnc : List PVal → Option PVal
  | [] => none
  | [v] => some v
  | vs => some (.vlist vs)

/-- Python `isinstance(x, list)` on the accumulated values. -/
def isVlist : PVal → Bool
  | .vlist _ => true
  | _ => false

/-- The accumulated dict produced by folding the entries of a part list. -/
def mpFromEntries (pvs : List (String × PVal)) : List (String × PVal) :=
  pvs.foldl (fun t e => mpAccum t e.1 e.2) []

/-- A multipart splitter oracle delivering no parts; used where the
multipart branch is not exercised. -/
def noParts : Bytes → String → List Part :=
  fun _ _ => []

/-- A request context for an url-encoded form submission with body
`a=1&a=2&b=3`. -/
def urlencodedCtx : Ctx :=
  mkCtx { headers := [("content-type", "application/x-www-form-urlencoded")] }
    [utf8Encode "a=1&a=2&b=3"]

/-- A request context for a JSON request whose body is the document
`null`. -/
def jsonNullCtx : Ctx :=
  mkCtx { headers := [("content-type", "application/json")] }
    [utf8Encode "null"]

/-- A request context for a JSON request whose body is the object
`\x7b"x": 1\x7d`. -/
def jsonDictCtx : Ctx :=
  mkCtx { headers := [("content-type", "application/json")] }
    [utf8Encode "\x7b\"x\": 1\x7d"]

/-- A multipart text part named `tag` with the given payload text. -/
def tagPart (text : String) : Part :=
  { headers := [("Content-Disposition", "form-data; name=\"tag\"")],
    raw := utf8Encode text }

/-- A multipart file part named `file` carrying `a.txt`. -/
def filePart : Part :=
  { headers :=
      [("Content-Disposition", "form-data; name=\"file\"; filename=\"a.txt\"")],
    filename := "a.txt",
    contentType := "text/plain",
    raw := [104, 105] }

/-- A multipart part whose Content-Disposition carries no `name`
parameter. -/
def namelessPart : Part :=
  { headers := [("Content-Disposition", "form-data; filename=\"b.bin\"")],
    filename := "b.bin",
    raw := [0] }

/-- A small route table used to exercise the resolution cascade: one static
route, two parametric routes, a wildcard fallback. -/
def sampleApp : AppState :=
  { static := [(("/x", "GET"), ⟨1, true⟩)],
    parametric :=
      [([.lit ['x'], .cap ['n']], "GET", ⟨2, true⟩),
       ([.cap ['m']], "GET", ⟨3, true⟩)],
    fallback := some ("*", ⟨4, true⟩) }

/-! Lemmas about the body reader. -/

theorem read_allGo_fst (limit : Nat) :
    ∀ (chunks : List Bytes) (buf : Bytes), buf.length ≤ limit →
      (read_allGo buf chunks limit).1 =
        if buf.length + chunks.flatten.length ≤ limit then
          .ok (buf ++ chunks.flatten)
        else .error (.valueError "request body too large")
  | [], buf, h => by
    simp [read_allGo, h]
  | c :: rest, buf, h => by
    have hunf : read_allGo buf (c :: rest) limit =
        if limit < (buf ++ c).length then
          (.error (.valueError "request body too large"), rest)
        else read_allGo (buf ++ c) rest limit := rfl
    by_cases hlt : limit < (buf ++ c).length
    · rw [hunf, if_pos hlt]
      have hgt : ¬ buf.length + (c :: rest).flatten.length ≤ limit := by
        simp only [List.length_append] at hlt
        simp only [List.flatten_cons, List.length_append]
        omega
      rw [if_neg hgt]
    · rw [hunf, if_neg hlt]
      have hle : (buf ++ c).length ≤ limit := Nat.le_of_not_lt hlt
      rw [read_allGo_fst limit rest (buf ++ c) hle]
      simp only [List.length_append, List.flatten_cons, List.append_assoc,
        Nat.add_assoc]

theorem read_allGo_stops (limit : Nat) :
    ∀ (pre : List Bytes) (buf c : Bytes) (rest : List Bytes),
      buf.length + pre.flatten.length ≤ limit →
      limit < buf.length + pre.flatten.length + c.length →
      read_allGo buf (pre ++ c :: rest) limit =
        (.error (.valueError "request body too large"), rest)
  | [], buf, c, rest, _, h2 => by
    have hlt : limit < (buf ++ c).length := by
      simp only [List.flatten_nil, List.length_nil, Nat.add_zero] at h2
      simp only [List.length_append]
      omega
    show (if limit < (buf ++ c).length then
        ((.error (.valueError "request body too large") : Except PyErr Bytes),
          rest)
      else read_allGo (buf ++ c) rest limit) = _
    rw [if_pos hlt]
  | p :: pre, buf, c, rest, h1, h2 => by
    have hle : (buf ++ p).length ≤ limit := by
      simp only [List.flatten_cons, List.length_append] at h1
      simp only [List.length_append]
      omega
    have hnlt : ¬ limit < (buf ++ p).length := Nat.not_lt.mpr hle
    have ih := read_allGo_stops limit pre (buf ++ p) c rest
      (by
        simp only [List.flatten_cons, List.length_append] at h1
        simp only [List.length_append]
        omega)
      (by
        simp only [List.flatten_cons, List.length_append] at h2
        simp only [List.length_append]
        omega)
    show (if limit < (buf ++ p).length then
        ((.error (.valueError "request body too large") : Except PyErr Bytes),
          pre ++ c :: rest)
      else read_allGo (buf ++ p) (pre ++ c :: rest) limit) = _
    rw [if_neg hnlt]
    exact ih

/-- Claim C6: for every chunk stream and limit, `read_all` fails with the
"request body too large" ValueError exactly when the accumulated size
exceeds the limit at a chunk boundary — never yielding a result — and the
failure happens at the first offending boundary, leaving every later chunk
unconsumed (so the outcome is independent of them); otherwise it returns
the concatenation of all chunks in arrival order. -/
theorem claim6_read_all_limit (chunks : List Bytes) (limit : Nat) :
    (read_all chunks limit =
      if chunks.flatten.length ≤ limit then .ok chunks.flatten
      else .error (.valueError "request body too large")) ∧
    (∀ pre c rest, chunks = pre ++ c :: rest →
      pre.flatten.length ≤ limit → limit < pre.flatten.length + c.length →
      ∀ rest2, read_allGo [] (pre ++ c :: rest2) limit =
        (.error (.valueError "request body too large"), rest2)) := by
  constructor
  · have h := read_allGo_fst limit chunks [] (Nat.zero_le _)
    simpa [read_all] using h
  · intro pre c rest _ h1 h2 rest2
    exact read_allGo_stops limit pre [] c rest2 (by simpa using h1)
      (by simpa using h2)

/-- Witness for C6 at concrete streams: total size 3 against limit 2 fails,
the failing read leaves the tail chunk unconsumed, and total size 3 against
limit 3 returns the concatenation. -/
theorem claim6_witness :
    read_all [[0], [1, 2]] 2 = .error (.valueError "request body too large") ∧
    read_allGo [] [[0], [1, 2], [9]] 2 =
      (.error (.valueError "request body too large"), [[9]]) ∧
    read_all [[0], [1, 2]] 3 = .ok [0, 1, 2] := by
  refine ⟨?_, ?_, ?_⟩
  · exact ((claim6_read_all_limit [[0], [1, 2]] 2).1).trans (by rfl)
  · exact (claim6_read_all_limit [[0], [1, 2], [9]] 2).2 [[0]] [1, 2] [[9]] rfl
      (by decide) (by decide) [[9]]
  · exact ((claim6_read_all_limit [[0], [1, 2]] 3).1).trans (by rfl)

/-- Claim C3: the `args` accessor of a freshly constructed context never
returns the decoded query-string mapping — evaluating it raises
`AttributeError`, because `Context.args` passes the context object itself
to `util.parse_qs` where the query string is expected, and the urllib
parser tries to call `.decode` on it. The third conjunct shows the mapping
`util.parse_qs` would deliver on an actual query string (scalar for a
single key, ordered list for a repeated one), which the accessor can never
produce. -/
theorem claim3_args_accessor_broken (request : Request) (proto : List Bytes) :
    (argsAccess (mkCtx request proto)).1 = .error .attributeError ∧
    (argsAccess (mkCtx request proto)).2 = mkCtx request proto ∧
    util_parse_qs_dyn (.ofStr "a=1&a=2&b=3") =
      .ok (.vdict [("a", .vlist [.vstr "1", .vstr "2"]), ("b", .vstr "3")]) :=
  ⟨rfl, rfl, rfl⟩

/-- Claim C4: for the url-encoded body `a=1&a=2&b=3`, the body accessor
returns the unawaited `parse_qs` async-generator object, not a mapping of
any kind — `util.parse_body` yields `parse_qs(raw_body.decode(charset))`
without driving the generator. The last conjunct shows the mapping that
generator would yield if driven, which is what the claim expected the
accessor to return. -/
theorem claim4_urlencoded_body_is_generator :
    (bodyAccess noParts urlencodedCtx).1 = .ok (.qsGen "a=1&a=2&b=3") ∧
    (∀ kvs, PVal.qsGen "a=1&a=2&b=3" ≠ PVal.vdict kvs) ∧
    util_parse_qs_yield "a=1&a=2&b=3" =
      .vdict [("a", .vlist [.vstr "1", .vstr "2"]), ("b", .vstr "3")] :=
  ⟨rfl, fun _ h => PVal.noConfusion h, rfl⟩

/-- Claim C5 (amended): the `body` accessor is memoized for every decoded
value other than Python None: when a first access succeeds with a non-None
value, every later access returns the identical cached value and leaves the
context — including its chunk stream — untouched. (A body decoding to None
defeats the None-sentinel cache; see the counterexample.) -/
theorem claim5_body_memoized_for_non_none (split : Bytes → String → List Part)
    (ctx : Ctx) (v : PVal) (ctx1 : Ctx)
    (h : bodyAccess split ctx = (.ok v, ctx1)) (hv : v.isNone = false) :
    bodyAccess split ctx1 = (.ok v, ctx1) := by
  unfold bodyAccess at h ⊢
  by_cases hc : ctx.bodyCache.isNone
  · rw [if_pos hc] at h
    cases hp : parse_body_first split ctx with
    | mk r ctx2 =>
      cases r with
      | ok w =>
        rw [hp] at h
        have hw : w = v := by
          have := congrArg Prod.fst h
          simpa using this
        have hctx : ctx1 = { ctx2 with bodyCache := w } := by
          have := congrArg Prod.snd h
          simpa using this.symm
        have hcache : ctx1.bodyCache = v := by rw [hctx, hw]
        rw [if_neg (by rw [hcache, hv]; simp)]
        rw [hcache]
      | error e =>
        rw [hp] at h
        have := congrArg Prod.fst h
        simp at this
  · rw [if_neg hc] at h
    have hcv : ctx.bodyCache = v := by
      have := congrArg Prod.fst h
      simpa using this
    have hctx : ctx1 = ctx := by
      have := congrArg Prod.snd h
      simpa using this.symm
    rw [hctx, if_neg (by rw [hcv, hv]; simp)]
    rw [hcv]

/-- Witness for C5: a JSON body decoding to a dict is decoded on first
access and the second access returns the identical cached value with the
state unchanged. -/
theorem claim5_witness :
    bodyAccess noParts
        { request := { headers := [("content-type", "application/json")] },
          stream := [], bodyCache := .vdict [("x", .vint 1)],
          argsCache := .vnone } =
      (.ok (.vdict [("x", .vint 1)]),
        { request := { headers := [("content-type", "application/json")] },
          stream := [], bodyCache := .vdict [("x", .vint 1)],
          argsCache := .vnone }) :=
  claim5_body_memoized_for_non_none noParts jsonDictCtx
    (.vdict [("x", .vint 1)])
    { request := { headers := [("content-type", "application/json")] },
      stream := [], bodyCache := .vdict [("x", .vint 1)], argsCache := .vnone }
    rfl rfl

/-- Counterexample to C5 as stated: a JSON body `null` decodes to None,
which coincides with the cache sentinel, so the first access succeeds with
None but the second access does not return the cached value — it re-reads
the (now exhausted) stream and fails decoding the empty body. -/
theorem claim5_counterexample_null_body :
    (bodyAccess noParts jsonNullCtx).1 = .ok .vnone ∧
    (bodyAccess noParts ((bodyAccess noParts jsonNullCtx).2)).1 =
      .error (.valueError "Expecting value") :=
  ⟨rfl, rfl⟩

/-- Claim C9: for every status and markup, the translation of an
`HTMLResponse` makes exactly one transport call, via the string primitive
with content type text/html — but the body it passes is the literal string
"OK", never the markup, because `HTMLResponse.__init__` stores "OK" as the
response message and the translation step sends `response.message`. -/
theorem claim9_html_translation_sends_ok :
    (∀ status markup, translate (.htmlResp status markup) =
      [.respStr status [("content-type", "text/html")] "OK"]) ∧
    RespObj.message (.htmlResp 200 (.str "<h1>hi</h1>")) ≠
      Msg.str "<h1>hi</h1>" :=
  ⟨fun _ _ => rfl, by decide⟩

/-! Lemmas about association lists and the multipart accumulation. -/

theorem alistGet_cons {α : Type} (k0 : String) (v0 : α)
    (t : List (String × α)) (k : String) :
    alistGet ((k0, v0) :: t) k = if k0 = k then some v0 else alistGet t k := rfl

theorem alistGet_append_right {α : Type} :
    ∀ (temp : List (String × α)) (k : String) (v : α),
      alistGet temp k = none → alistGet (temp ++ [(k, v)]) k = some v
  | [], k, v, _ => by simp [alistGet]
  | (k0, v0) :: t, k, v, h => by
    rw [alistGet_cons] at h
    by_cases hk : k0 = k
    · rw [if_pos hk] at h
      exact absurd h (by simp)
    · rw [if_neg hk] at h
      rw [List.cons_append, alistGet_cons, if_neg hk]
      exact alistGet_append_right t k v h

theorem alistGet_append_other {α : Type} :
    ∀ (temp : List (String × α)) (k name : String) (v : α),
      name ≠ k → alistGet (temp ++ [(k, v)]) name = alistGet temp name
  | [], k, name, v, h => by
    have hkn : ¬ k = name := fun hh => h hh.symm
    simp [alistGet, hkn]
  | (k0, v0) :: t, k, name, v, h => by
    rw [List.cons_append, alistGet_cons, alistGet_cons]
    by_cases hk : k0 = name
    · rw [if_pos hk, if_pos hk]
    · rw [if_neg hk, if_neg hk]
      exact alistGet_append_other t k name v h

theorem alistSet_cons {α : Type} (k0 : String) (v0 : α)
    (t : List (String × α)) (k : String) (v : α) :
    alistSet ((k0, v0) :: t) k v =
      if k0 = k then (k0, v) :: t else (k0, v0) :: alistSet t k v := rfl

theorem alistSet_get_same {α : Type} :
    ∀ (temp : List (String × α)) (k : String) (v : α),
      alistGet (alistSet temp k v) k = some v
  | [], k, v => by simp [alistGet, alistSet]
  | (k0, v0) :: t, k, v => by
    rw [alistSet_cons]
    by_cases hk : k0 = k
    · rw [if_pos hk, alistGet_cons, if_pos hk]
    · rw [if_neg hk, alistGet_cons, if_neg hk]
      exact alistSet_get_same t k v

theorem alistSet_get_other {α : Type} :
    ∀ (temp : List (String × α)) (k name : String) (v : α),
      name ≠ k → alistGet (alistSet temp k v) name = alistGet temp name
  | [], k, name, v, h => by
    have hkn : ¬ k = name := fun hh => h hh.symm
    simp [alistGet, alistSet, hkn]
  | (k0, v0) :: t, k, name, v, h => by
    rw [alistSet_cons]
    by_cases hk : k0 = k
    · have hkn : ¬ k0 = name := by rw [hk]; exact fun hh => h hh.symm
      rw [if_pos hk, alistGet_cons, alistGet_cons, if_neg hkn, if_neg hkn]
    · rw [if_neg hk, alistGet_cons, alistGet_cons]
      by_cases hn : k0 = name
      · rw [if_pos hn, if_pos hn]
      · rw [if_neg hn, if_neg hn]
        exact alistSet_get_other t k name v h

theorem mpAccum_eq_append (temp : List (String × PVal)) (n : String)
    (v : PVal) (hg : alistGet temp n = none) :
    mpAccum temp n v = temp ++ [(n, v)] := by
  unfold mpAccum
  rw [hg]

theorem mpAccum_eq_wrap (temp : List (String × PVal)) (n : String)
    (v x : PVal) (hx : isVlist x = false) (hg : alistGet temp n = some x) :
    mpAccum temp n v = alistSet temp n (.vlist [x, v]) := by
  unfold mpAccum
  rw [hg]
  cases x <;> first
    | rfl
    | exact absurd hx (by simp [isVlist])

theorem mpAccum_eq_extend (temp : List (String × PVal)) (n : String)
    (v : PVal) (xs : List PVal) (hg : alistGet temp n = some (.vlist xs)) :
    mpAccum temp n v = alistSet temp n (.vlist (xs ++ [v])) := by
  unfold mpAccum
  rw [hg]

theorem mpAccum_get_other (temp : List (String × PVal)) (n name : String)
    (v : PVal) (h : name ≠ n) :
    alistGet (mpAccum temp n v) name = alistGet temp name := by
  unfold mpAccum
  cases hx : alistGet temp n with
  | none => exact alistGet_append_other temp n name v h
  | some old =>
    cases old <;> exact alistSet_get_other temp n name _ h

theorem mpAccum_get_same (temp : List (String × PVal)) (n : String)
    (v : PVal) (vs : List PVal)
    (hinv : alistGet temp n = fieldEnc vs)
    (hnv : ∀ w ∈ vs, isVlist w = false) :
    alistGet (mpAccum temp n v) n = fieldEnc (vs ++ [v]) := by
  match vs, hinv, hnv with
  | [], hinv, _ =>
    rw [show fieldEnc [] = none from rfl] at hinv
    rw [mpAccum_eq_append temp n v hinv]
    exact alistGet_append_right temp n v hinv
  | [x], hinv, hnv =>
    rw [show fieldEnc [x] = some x from rfl] at hinv
    have hx : isVlist x = false := hnv x (by simp)
    rw [mpAccum_eq_wrap temp n v x hx hinv]
    exact alistSet_get_same temp n _
  | x :: y :: rest, hinv, _ =>
    rw [show fieldEnc (x :: y :: rest) = some (.vlist (x :: y :: rest)) from rfl]
      at hinv
    rw [mpAccum_eq_extend temp n v _ hinv]
    exact alistSet_get_same temp n _

theorem mpFold_get :
    ∀ (pvs : List (String × PVal)) (temp : List (String × PVal))
      (tv : String → List PVal),
      (∀ name, alistGet temp name = fieldEnc (tv name)) →
      (∀ name w, w ∈ tv name → isVlist w = false) →
      (∀ e ∈ pvs, isVlist e.2 = false) →
      ∀ name,
        alistGet (pvs.foldl (fun t e => mpAccum t e.1 e.2) temp) name =
          fieldEnc (tv name ++ valuesFor name pvs)
  | [], temp, tv, hinv, _, _, name => by
    simpa [valuesFor] using hinv name
  | (n, v) :: rest, temp, tv, hinv, hnv, hpvs, name => by
    have hv : isVlist v = false := hpvs (n, v) (by simp)
    have step := mpFold_get rest (mpAccum temp n v)
      (fun nm => if nm = n then tv nm ++ [v] else tv nm)
      (by
        intro nm
        show alistGet (mpAccum temp n v) nm =
          fieldEnc (if nm = n then tv nm ++ [v] else tv nm)
        by_cases hnm : nm = n
        · subst hnm
          rw [if_pos rfl]
          exact mpAccum_get_same temp nm v (tv nm) (hinv nm) (hnv nm)
        · rw [if_neg hnm]
          exact (mpAccum_get_other temp n nm v hnm).trans (hinv nm))
      (by
        intro nm w hw
        have hw2 : w ∈ (if nm = n then tv nm ++ [v] else tv nm) := hw
        by_cases hnm : nm = n
        · rw [if_pos hnm] at hw2
          rcases List.mem_append.mp hw2 with hw1 | hw3
          · exact hnv nm w hw1
          · rw [List.mem_singleton] at hw3
            subst hw3
            exact hv
        · rw [if_neg hnm] at hw2
          exact hnv nm w hw2)
      (fun e he => hpvs e (List.mem_cons_of_mem _ he))
      name
    rw [List.foldl_cons]
    rw [step]
    by_cases hnm : name = n
    · subst hnm
      have hvf : valuesFor name ((name, v) :: rest) = v :: valuesFor name rest := by
        simp [valuesFor]
      rw [hvf, if_pos rfl, List.append_assoc]
      rfl
    · have hvf : valuesFor name ((n, v) :: rest) = valuesFor name rest := by
        have : ¬ n = name := fun hh => hnm hh.symm
        simp [valuesFor, this]
      rw [hvf, if_neg hnm]

theorem partEntry_not_vlist (p : Part) (e : String × PVal)
    (h : partEntry p = .ok e) : isVlist e.2 = false := by
  unfold partEntry at h
  cases hcd : headersItem p.headers "Content-Disposition" with
  | error err => simp only [hcd] at h; exact absurd h (by simp)
  | ok cd =>
    simp only [hcd] at h
    cases hname : alistGet (parse_options_header cd).2 "name" with
    | none => simp only [hname] at h; exact absurd h (by simp)
    | some name =>
      simp only [hname] at h
      by_cases hf : ((alistGet (parse_options_header cd).2 "filename").isSome ∨
          (alistGet (parse_options_header cd).2 "filename*").isSome)
      · rw [if_pos hf] at h
        simp only [Except.ok.injEq] at h
        subst h
        rfl
      · rw [if_neg hf] at h
        simp only [Except.ok.injEq] at h
        subst h
        rfl

theorem partsVals_not_vlist :
    ∀ (parts : List Part) (pvs : List (String × PVal)),
      partsVals parts = .ok pvs → ∀ e ∈ pvs, isVlist e.2 = false
  | [], pvs, h, e, he => by
    simp only [partsVals, Except.ok.injEq] at h
    subst h
    simp at he
  | p :: rest, pvs, h, e, he => by
    unfold partsVals at h
    cases hp : partEntry p with
    | error err => simp only [hp] at h; exact absurd h (by simp)
    | ok e0 =>
      simp only [hp] at h
      cases hr : partsVals rest with
      | error err => simp only [hr] at h; exact absurd h (by simp)
      | ok es =>
        simp only [hr, Except.ok.injEq] at h
        subst h
        rcases List.mem_cons.mp he with he0 | hes
        · subst he0; exact partEntry_not_vlist p e hp
        · exact partsVals_not_vlist rest es hr e hes

theorem parse_multipartGo_entries :
    ∀ (parts : List Part) (temp : List (String × PVal))
      (pvs : List (String × PVal)), partsVals parts = .ok pvs →
      parse_multipartGo temp parts =
        .ok (pvs.foldl (fun t e => mpAccum t e.1 e.2) temp)
  | [], temp, pvs, h => by
    simp only [partsVals, Except.ok.injEq] at h
    subst h
    rfl
  | p :: rest, temp, pvs, h => by
    unfold partsVals at h
    cases hp : partEntry p with
    | error err => simp only [hp] at h; exact absurd h (by simp)
    | ok e0 =>
      simp only [hp] at h
      cases hr : partsVals rest with
      | error err => simp only [hr] at h; exact absurd h (by simp)
      | ok es =>
        simp only [hr, Except.ok.injEq] at h
        subst h
        show parse_multipartGo temp (p :: rest) = _
        unfold parse_multipartGo
        simp only [hp]
        rw [parse_multipartGo_entries rest (mpAccum temp e0.1 e0.2) es hr]
        rfl

/-- Claim C7: for every multipart part list that yields entries, the parser
accumulates fields by name: the resulting mapping exists, and for each name
its entry is exactly the encoding of that name's values in part order —
absent for no occurrence, the value itself for a single occurrence, and the
ordered list of all values for repeated occurrences (first occurrence
stored directly, second wrapping into a two-element list, later ones
appending). -/
theorem claim7_multipart_accumulation (parts : List Part)
    (pvs : List (String × PVal)) (h : partsVals parts = .ok pvs) :
    parse_multipart parts = .ok (mpFromEntries pvs) ∧
    ∀ name, alistGet (mpFromEntries pvs) name = fieldEnc (valuesFor name pvs) := by
  constructor
  · exact parse_multipartGo_entries parts [] pvs h
  · intro name
    have hg := mpFold_get pvs [] (fun _ => []) (fun _ => rfl)
      (by intro _ w hw; simp at hw) (partsVals_not_vlist parts pvs h) name
    simpa [mpFromEntries] using hg

/-- Witness for C7: two text parts both named tag with contents x then y
yield the two-element ordered list, and a file part yields the file dict
with its filename and raw content. -/
theorem claim7_witness :
    parse_multipart [tagPart "x", tagPart "y"] =
      .ok [("tag", .vlist [.vstr "x", .vstr "y"])] ∧
    parse_multipart [filePart] =
      .ok [("file",
        .vdict [("filename", .vstr "a.txt"), ("content-type", .vstr "text/plain"),
                ("content", .vbytes [104, 105])])] ∧
    alistGet (mpFromEntries [("tag", .vstr "x"), ("tag", .vstr "y")]) "tag" =
      fieldEnc [.vstr "x", .vstr "y"] := by
  have h1 := claim7_multipart_accumulation [tagPart "x", tagPart "y"]
    [("tag", .vstr "x"), ("tag", .vstr "y")] rfl
  have h2 := claim7_multipart_accumulation [filePart]
    [("file",
      .vdict [("filename", .vstr "a.txt"), ("content-type", .vstr "text/plain"),
              ("content", .vbytes [104, 105])])] rfl
  exact ⟨h1.1, h2.1, h1.2 "tag"⟩

theorem parse_multipartGo_err :
    ∀ (pre : List Part) (p : Part) (post : List Part)
      (temp : List (String × PVal)) (err : PyErr),
      (∀ q ∈ pre, ∃ e, partEntry q = .ok e) →
      partEntry p = .error err →
      parse_multipartGo temp (pre ++ p :: post) = .error err
  | [], p, post, temp, err, _, hp => by
    show parse_multipartGo temp (p :: post) = _
    unfold parse_multipartGo
    rw [hp]
  | q :: pre, p, post, temp, err, hpre, hp => by
    obtain ⟨e, he⟩ := hpre q (by simp)
    show parse_multipartGo temp (q :: (pre ++ p :: post)) = _
    unfold parse_multipartGo
    rw [he]
    exact parse_multipartGo_err pre p post (mpAccum temp e.1 e.2) err
      (fun q2 hq2 => hpre q2 (List.mem_cons_of_mem _ hq2)) hp

/-- Claim C10: a multipart part whose Content-Disposition carries no name
parameter makes the whole parse fail with the key-lookup failure
KeyError("name"): no mapping is returned, not even a partial one for the
parts processed before the offending part. -/
theorem claim10_multipart_missing_name (pre : List Part) (p : Part)
    (post : List Part) (cd : String)
    (hpre : ∀ q ∈ pre, ∃ e, partEntry q = .ok e)
    (hcd : headersItem p.headers "Content-Disposition" = .ok cd)
    (hname : alistGet (parse_options_header cd).2 "name" = none) :
    parse_multipart (pre ++ p :: post) = .error (.keyError "name") := by
  have hp : partEntry p = .error (.keyError "name") := by
    unfold partEntry
    simp only [hcd, hname]
  exact parse_multipartGo_err pre p post [] (.keyError "name") hpre hp

/-- Witness for C10: a valid text part followed by a nameless part produces
the KeyError, with the valid part's partial mapping discarded. -/
theorem claim10_witness :
    parse_multipart [tagPart "x", namelessPart] = .error (.keyError "name") :=
  claim10_multipart_missing_name [tagPart "x"] namelessPart []
    "form-data; filename=\"b.bin\""
    (by
      intro q hq
      rw [List.mem_singleton] at hq
      subst hq
      exact ⟨("tag", .vstr "x"), rfl⟩)
    rfl rfl

/-- Claim C8: registration errors are raised by `register` itself — a
non-callable handler is a TypeError before anything else; a static path
(no brace, not the wildcard) whose `(path, method)` key already exists is a
ValueError; registering the wildcard path never raises for a duplicate and
simply overwrites the single fallback slot, so the last fallback
registration wins. -/
theorem claim8_registration_errors (a : AppState) (path : String)
    (func : Handler) (method : String) :
    (func.callable = false → register a path func method = .error .typeError) ∧
    (func.callable = true → path ≠ "*" → path.data.contains '\x7b' = false →
      ∀ f, staticGet a.static (path, pyUpper method) = some f →
        register a path func method = .error (.valueError "already registered")) ∧
    (func.callable = true →
      register a "*" func method =
        .ok { a with fallback := some (pyUpper method, func) }) ∧
    (∀ (g : Handler) (m2 : String), func.callable = true → g.callable = true →
      (register a "*" func method).bind (fun a1 => register a1 "*" g m2) =
        .ok { a with fallback := some (pyUpper m2, g) }) := by
  refine ⟨?_, ?_, ?_, ?_⟩
  · intro h
    unfold register
    rw [if_pos (by rw [h]; simp)]
  · intro hc hstar hbrace f hf
    unfold register
    rw [if_neg (by rw [hc]; simp), if_neg hstar,
      if_pos (by rw [hbrace]; simp), if_pos (by rw [hf]; rfl)]
  · intro hc
    unfold register
    rw [if_neg (by rw [hc]; simp), if_pos rfl]
  · intro g m2 hc hg
    unfold register
    rw [if_neg (by rw [hc]; simp), if_pos rfl]
    show register { a with fallback := some (pyUpper method, func) } "*" g m2 = _
    unfold register
    rw [if_neg (by rw [hg]; simp), if_pos rfl]

/-- Witness for C8 at concrete registrations: a non-callable handler fails,
a duplicate static key fails (method case-insensitively), and wildcard
registrations overwrite the fallback with the last one winning. -/
theorem claim8_witness :
    register sampleApp "/x" ⟨9, false⟩ "GET" = .error .typeError ∧
    register sampleApp "/x" ⟨9, true⟩ "get" =
      .error (.valueError "already registered") ∧
    register sampleApp "*" ⟨9, true⟩ "post" =
      .ok { sampleApp with fallback := some ("POST", ⟨9, true⟩) } ∧
    (register sampleApp "*" ⟨8, true⟩ "GET").bind
        (fun a1 => register a1 "*" ⟨9, true⟩ "put") =
      .ok { sampleApp with fallback := some ("PUT", ⟨9, true⟩) } := by
  have h := claim8_registration_errors sampleApp "/x" ⟨9, false⟩ "GET"
  have h2 := claim8_registration_errors sampleApp "/x" ⟨9, true⟩ "get"
  have h3 := claim8_registration_errors sampleApp "*" ⟨9, true⟩ "post"
  have h4 := claim8_registration_errors sampleApp "*" ⟨8, true⟩ "GET"
  exact ⟨h.1 rfl,
    h2.2.1 rfl (by decide) (by decide) ⟨1, true⟩ rfl,
    h3.2.2.1 rfl,
    h4.2.2.2 ⟨9, true⟩ "put" rfl rfl⟩

/-! Lemmas about the parametric scan. -/

theorem findParametric_cons (toks : List Tok) (mth : String) (fn : Handler)
    (rest : List (List Tok × String × Handler)) (path m : String) :
    findParametric ((toks, mth, fn) :: rest) path m =
      if mth ≠ m then findParametric rest path m
      else
        match reMatch toks path with
        | some gd => some (fn, gd)
        | none => findParametric rest path m := rfl

theorem findParametric_skip (toks : List Tok) (mth : String) (fn : Handler)
    (rest : List (List Tok × String × Handler)) (path m : String)
    (h : mth ≠ m ∨ reMatch toks path = none) :
    findParametric ((toks, mth, fn) :: rest) path m =
      findParametric rest path m := by
  rw [findParametric_cons]
  by_cases hm : mth ≠ m
  · rw [if_pos hm]
  · rw [if_neg hm]
    rcases h with h | h
    · exact absurd h hm
    · rw [h]

theorem findParametric_none :
    ∀ (l : List (List Tok × String × Handler)) (path m : String),
      (∀ e ∈ l, e.2.1 ≠ m ∨ reMatch e.1 path = none) →
      findParametric l path m = none
  | [], _, _, _ => rfl
  | (toks, mth, fn) :: rest, path, m, h => by
    rw [findParametric_skip toks mth fn rest path m (h (toks, mth, fn) (by simp))]
    exact findParametric_none rest path m
      (fun e he => h e (List.mem_cons_of_mem _ he))

theorem findParametric_first :
    ∀ (pre : List (List Tok × String × Handler)) (toks : List Tok)
      (f : Handler) (post : List (List Tok × String × Handler))
      (path m : String) (gd : List (String × String)),
      (∀ e ∈ pre, e.2.1 ≠ m ∨ reMatch e.1 path = none) →
      reMatch toks path = some gd →
      findParametric (pre ++ (toks, m, f) :: post) path m = some (f, gd)
  | [], toks, f, post, path, m, gd, _, hm => by
    show findParametric ((toks, m, f) :: post) path m = _
    unfold findParametric
    rw [if_neg (by simp), hm]
  | (t0, m0, f0) :: pre, toks, f, post, path, m, gd, hpre, hm => by
    rw [List.cons_append,
      findParametric_skip t0 m0 f0 _ path m (hpre (t0, m0, f0) (by simp))]
    exact findParametric_first pre toks f post path m gd
      (fun e he => hpre e (List.mem_cons_of_mem _ he)) hm

/-- Claim C1: the resolution cascade. With the request method upper-cased:
a static hit on `(path, method)` returns that handler with empty params no
matter what the parametric list or fallback hold (static always beats
parametric regardless of registration order); on a static miss, the first
parametric entry in registration order whose method equals the request
method and whose pattern matches wins, with its extracted captures; when no
parametric entry applies, a fallback whose method equals the request method
or is the wildcard is returned; otherwise resolution is the 404 plain-text
Not Found response. -/
theorem claim1_resolution_cascade (a : AppState) (path method : String) :
    (∀ f, staticGet a.static (path, pyUpper method) = some f →
      resolve a path method = .found f []) ∧
    (staticGet a.static (path, pyUpper method) = none →
      ∀ pre toks f post gd,
        a.parametric = pre ++ (toks, pyUpper method, f) :: post →
        (∀ e ∈ pre, e.2.1 ≠ pyUpper method ∨ reMatch e.1 path = none) →
        reMatch toks path = some gd →
        resolve a path method = .found f gd) ∧
    (staticGet a.static (path, pyUpper method) = none →
      (∀ e ∈ a.parametric, e.2.1 ≠ pyUpper method ∨ reMatch e.1 path = none) →
      ((∀ m f, a.fallback = some (m, f) → (m = pyUpper method ∨ m = "*") →
          resolve a path method = .found f []) ∧
       (∀ m f, a.fallback = some (m, f) → m ≠ pyUpper method → m ≠ "*" →
          resolve a path method = .response 404 "Not Found") ∧
       (a.fallback = none →
          resolve a path method = .response 404 "Not Found"))) := by
  refine ⟨?_, ?_, ?_⟩
  · intro f hf
    unfold resolve
    simp only [hf]
  · intro h0 pre toks f post gd hsplit hpre hm
    unfold resolve
    simp only [h0, hsplit,
      findParametric_first pre toks f post path (pyUpper method) gd hpre hm]
  · intro h0 hnone
    have hfp : findParametric a.parametric path (pyUpper method) = none :=
      findParametric_none a.parametric path (pyUpper method) hnone
    refine ⟨?_, ?_, ?_⟩
    · intro m f hfb hm
      unfold resolve
      simp only [h0, hfp, hfb]
      rw [if_pos hm]
    · intro m f hfb hm1 hm2
      unfold resolve
      simp only [h0, hfp, hfb]
      rw [if_neg (by
        intro hc
        rcases hc with hc | hc
        · exact hm1 hc
        · exact hm2 hc)]
    · intro hfb
      unfold resolve
      simp only [h0, hfp, hfb]

/-- Witness for C1 on a concrete route table: the static route wins with
empty params (method case-insensitively); the first matching parametric
entry wins with its captures; a later parametric entry wins when earlier
ones do not match; the wildcard fallback answers when nothing matches; a
method-restricted fallback does not answer another method; and with no
fallback the result is the 404 Not Found response. -/
theorem claim1_witness :
    resolve sampleApp "/x" "get" = .found ⟨1, true⟩ [] ∧
    resolve sampleApp "/x/7" "GET" = .found ⟨2, true⟩ [("n", "7")] ∧
    resolve sampleApp "/zz" "GET" = .found ⟨3, true⟩ [("m", "zz")] ∧
    resolve sampleApp "/zz/7/8" "GET" = .found ⟨4, true⟩ [] ∧
    resolve { sampleApp with fallback := some ("POST", ⟨4, true⟩) }
      "/zz/7/8" "GET" = .response 404 "Not Found" ∧
    resolve { sampleApp with fallback := none } "/zz/7/8" "GET" =
      .response 404 "Not Found" := by
  refine ⟨?_, ?_, ?_, ?_, ?_, ?_⟩
  · exact (claim1_resolution_cascade sampleApp "/x" "get").1 ⟨1, true⟩ rfl
  · exact (claim1_resolution_cascade sampleApp "/x/7" "GET").2.1 rfl
      [] [.lit ['x'], .cap ['n']] ⟨2, true⟩ [([.cap ['m']], "GET", ⟨3, true⟩)]
      [("n", "7")] rfl (by intro e he; simp at he) rfl
  · exact (claim1_resolution_cascade sampleApp "/zz" "GET").2.1 rfl
      [([.lit ['x'], .cap ['n']], "GET", ⟨2, true⟩)] [.cap ['m']] ⟨3, true⟩ []
      [("m", "zz")] rfl
      (by
        intro e he
        rw [List.mem_singleton] at he
        subst he
        exact Or.inr rfl)
      rfl
  · exact ((claim1_resolution_cascade sampleApp "/zz/7/8" "GET").2.2 rfl
      (by
        intro e he
        rcases List.mem_cons.mp he with he | he
        · subst he; exact Or.inr rfl
        · rw [List.mem_singleton] at he; subst he; exact Or.inr rfl)).1
      "*" ⟨4, true⟩ rfl (Or.inr rfl)
  · exact ((claim1_resolution_cascade
      { sampleApp with fallback := some ("POST", ⟨4, true⟩) }
      "/zz/7/8" "GET").2.2 rfl
      (by
        intro e he
        rcases List.mem_cons.mp he with he | he
        · subst he; exact Or.inr rfl
        · rw [List.mem_singleton] at he; subst he; exact Or.inr rfl)).2.1
      "POST" ⟨4, true⟩ rfl (by decide) (by decide)
  · exact ((claim1_resolution_cascade
      { sampleApp with fallback := none } "/zz/7/8" "GET").2.2 rfl
      (by
        intro e he
        rcases List.mem_cons.mp he with he | he
        · subst he; exact Or.inr rfl
        · rw [List.mem_singleton] at he; subst he; exact Or.inr rfl)).2.2 rfl

/-! Lemmas about character splitting, used to relate the compiled-pattern
matcher to the specification's segment-wise matching. -/

theorem splitOnCh_ne_nil (sep : Char) : ∀ cs, splitOnCh sep cs ≠ []
  | [] => by simp [splitOnCh]
  | c :: cs => by
    unfold splitOnCh
    by_cases h : c = sep
    · rw [if_pos h]
      simp
    · rw [if_neg h]
      cases hs : splitOnCh sep cs <;> simp

theorem splitOnCh_single (sep : Char) :
    ∀ cs, cs.all (· ≠ sep) = true → splitOnCh sep cs = [cs]
  | [], _ => rfl
  | c :: cs, h => by
    simp only [List.all_cons, Bool.and_eq_true, decide_eq_true_eq] at h
    show (if c = sep then [] :: splitOnCh sep cs
      else
        match splitOnCh sep cs with
        | [] => [[c]]
        | s :: ss => (c :: s) :: ss) = [c :: cs]
    rw [if_neg h.1, splitOnCh_single sep cs h.2]

theorem splitOnCh_cons_sep (q : List Char) :
    ∀ (P : List Char), P.all (· ≠ '/') = true →
      splitOnCh '/' (P ++ '/' :: q) = P :: splitOnCh '/' q
  | [], _ => by
    show (if '/' = '/' then [] :: splitOnCh '/' q
      else
        match splitOnCh '/' q with
        | [] => [['/']]
        | s :: ss => ('/' :: s) :: ss) = [] :: splitOnCh '/' q
    rw [if_pos rfl]
  | c :: P, h => by
    simp only [List.all_cons, Bool.and_eq_true, decide_eq_true_eq] at h
    rw [List.cons_append]
    show (if c = '/' then [] :: splitOnCh '/' (P ++ '/' :: q)
      else
        match splitOnCh '/' (P ++ '/' :: q) with
        | [] => [[c]]
        | s :: ss => (c :: s) :: ss) = (c :: P) :: splitOnCh '/' q
    rw [if_neg h.1, splitOnCh_cons_sep q P h.2]

theorem splitOnCh_sepFree (sep : Char) :
    ∀ cs s, s ∈ splitOnCh sep cs → s.all (· ≠ sep) = true
  | [], s, h => by
    simp only [splitOnCh, List.mem_singleton] at h
    subst h
    rfl
  | c :: cs, s, h => by
    unfold splitOnCh at h
    by_cases hc : c = sep
    · rw [if_pos hc] at h
      rcases List.mem_cons.mp h with h1 | h2
      · subst h1; rfl
      · exact splitOnCh_sepFree sep cs s h2
    · rw [if_neg hc] at h
      cases hs : splitOnCh sep cs with
      | nil => exact absurd hs (splitOnCh_ne_nil sep cs)
      | cons s0 ss0 =>
        rw [hs] at h
        rcases List.mem_cons.mp h with h1 | h2
        · subst h1
          have hs0 : s0 ∈ splitOnCh sep cs := by rw [hs]; simp
          have := splitOnCh_sepFree sep cs s0 hs0
          simp only [List.all_cons, Bool.and_eq_true, decide_eq_true_eq]
          exact ⟨hc, this⟩
        · exact splitOnCh_sepFree sep cs s (by rw [hs]; exact List.mem_cons_of_mem _ h2)

theorem takeWhile_sep (q : List Char) :
    ∀ (P : List Char), P.all (· ≠ '/') = true →
      (P ++ '/' :: q).takeWhile (· ≠ '/') = P
  | [], _ => by
    simp [List.takeWhile_cons]
  | c :: P, h => by
    simp only [List.all_cons, Bool.and_eq_true, decide_eq_true_eq] at h
    rw [List.cons_append, List.takeWhile_cons]
    rw [if_pos (by simpa using h.1)]
    rw [takeWhile_sep q P h.2]

theorem dropWhile_sep (q : List Char) :
    ∀ (P : List Char), P.all (· ≠ '/') = true →
      (P ++ '/' :: q).dropWhile (· ≠ '/') = '/' :: q
  | [], _ => by
    simp [List.dropWhile_cons]
  | c :: P, h => by
    simp only [List.all_cons, Bool.and_eq_true, decide_eq_true_eq] at h
    rw [List.cons_append, List.dropWhile_cons]
    rw [if_pos (by simpa using h.1)]
    exact dropWhile_sep q P h.2

theorem chopLit_iff : ∀ (l cs r : List Char), chopLit l cs = some r ↔ cs = l ++ r
  | [], cs, r => by
    simp [chopLit]
  | a :: l, [], r => by
    simp [chopLit]
  | a :: l, c :: cs, r => by
    show (if a = c then chopLit l cs else none) = some r ↔ _
    by_cases h : a = c
    · subst h
      rw [if_pos rfl, chopLit_iff l cs r]
      simp
    · rw [if_neg h]
      constructor
      · intro hcontra
        exact absurd hcontra (by simp)
      · intro he
        have := (List.cons.injEq c cs a (l ++ r)).mp he
        exact absurd this.1.symm h

theorem slashDecomp : ∀ cs : List Char,
    cs.all (· ≠ '/') = true ∨
      ∃ P q, cs = P ++ '/' :: q ∧ P.all (· ≠ '/') = true
  | [] => Or.inl rfl
  | c :: cs => by
    by_cases hc : c = '/'
    · subst hc
      exact Or.inr ⟨[], cs, rfl, rfl⟩
    · rcases slashDecomp cs with h | ⟨P, q, heq, hP⟩
      · left
        simp only [List.all_cons, Bool.and_eq_true, decide_eq_true_eq]
        exact ⟨hc, h⟩
      · right
        refine ⟨c :: P, q, by rw [heq, List.cons_append], ?_⟩
        simp only [List.all_cons, Bool.and_eq_true, decide_eq_true_eq]
        exact ⟨hc, hP⟩

theorem sepUniq :
    ∀ (P l q r : List Char), P.all (· ≠ '/') = true → l.all (· ≠ '/') = true →
      P ++ '/' :: q = l ++ '/' :: r → P = l ∧ q = r
  | [], [], q, r, _, _, h => by
    simp only [List.nil_append] at h
    exact ⟨rfl, (List.cons.injEq _ _ _ _).mp h |>.2⟩
  | [], a :: l, q, r, _, hl, h => by
    simp only [List.nil_append, List.cons_append] at h
    have ha := ((List.cons.injEq _ _ _ _).mp h).1
    simp only [List.all_cons, Bool.and_eq_true, decide_eq_true_eq] at hl
    exact absurd ha.symm hl.1
  | a :: P, [], q, r, hP, _, h => by
    simp only [List.nil_append, List.cons_append] at h
    have ha := ((List.cons.injEq _ _ _ _).mp h).1
    simp only [List.all_cons, Bool.and_eq_true, decide_eq_true_eq] at hP
    exact absurd ha hP.1
  | a :: P, b :: l, q, r, hP, hl, h => by
    simp only [List.cons_append] at h
    have hinj := (List.cons.injEq _ _ _ _).mp h
    simp only [List.all_cons, Bool.and_eq_true, decide_eq_true_eq] at hP hl
    have ih := sepUniq P l q r hP.2 hl.2 hinj.2
    exact ⟨by rw [hinj.1, ih.1], ih.2⟩

/-! Evaluation lemmas for the specification-side matcher. -/

theorem specSegs_lit (l : List Char) (ts : List Tok) (s : List Char)
    (ss : List (List Char)) :
    specSegs (.lit l :: ts) (s :: ss) = if s = l then specSegs ts ss else none :=
  rfl

theorem specSegs_cap (n : List Char) (ts : List Tok) (s : List Char)
    (ss : List (List Char)) :
    specSegs (.cap n :: ts) (s :: ss) =
      if s ≠ [] ∧ slashFree s then
        (specSegs ts ss).map ((n.asString, s.asString) :: ·)
      else none :=
  rfl

theorem specSegs_nil_cons (t : Tok) (ts : List Tok) :
    specSegs (t :: ts) [] = none := by
  cases t <;> rfl

theorem specSegs_cons_nil (s : List Char) (ss : List (List Char)) :
    specSegs [] (s :: ss) = none :=
  rfl

theorem specSegs_one_tok_two_segs (t : Tok) (s0 s1 : List Char)
    (ss : List (List Char)) :
    specSegs [t] (s0 :: s1 :: ss) = none := by
  cases t with
  | lit l =>
    rw [specSegs_lit]
    by_cases h : s0 = l
    · rw [if_pos h]
      rfl
    · rw [if_neg h]
  | cap n =>
    rw [specSegs_cap]
    by_cases h : s0 ≠ [] ∧ slashFree s0
    · rw [if_pos h]
      rfl
    · rw [if_neg h]

theorem specSegs_one_tok_split_sep (t : Tok) (P q : List Char) :
    specSegs [t] (P :: splitOnCh '/' q) = none := by
  cases hq : splitOnCh '/' q with
  | nil => exact absurd hq (splitOnCh_ne_nil '/' q)
  | cons s0 ss0 => exact specSegs_one_tok_two_segs t P s0 ss0

theorem specSegs_two_toks_one_seg (t t2 : Tok) (ts : List Tok) (s : List Char) :
    specSegs (t :: t2 :: ts) [s] = none := by
  cases t with
  | lit l =>
    rw [specSegs_lit]
    by_cases h : s = l
    · rw [if_pos h]
      exact specSegs_nil_cons t2 ts
    · rw [if_neg h]
  | cap n =>
    rw [specSegs_cap]
    by_cases h : s ≠ [] ∧ slashFree s
    · rw [if_pos h, specSegs_nil_cons t2 ts]
      rfl
    · rw [if_neg h]

theorem specMatchNL_eq_full (toks : List Tok) (cs : List Char)
    (gd : List (String × String))
    (h : specSegs toks (splitOnCh '/' cs) = some gd) :
    specMatchNL toks cs = some gd := by
  unfold specMatchNL
  simp only [h]

theorem specMatchNL_eq_fallback (toks : List Tok) (cs : List Char)
    (h1 : specSegs toks (splitOnCh '/' cs) = none)
    (h2 : cs.getLast? = some '\n') :
    specMatchNL toks cs = specSegs toks (splitOnCh '/' cs.dropLast) := by
  unfold specMatchNL
  simp only [h1]
  rw [if_pos h2]

theorem specMatchNL_eq_none (toks : List Tok) (cs : List Char)
    (h1 : specSegs toks (splitOnCh '/' cs) = none)
    (h2 : ¬ cs.getLast? = some '\n') :
    specMatchNL toks cs = none := by
  unfold specMatchNL
  simp only [h1]
  rw [if_neg h2]

theorem all_dropLast (p : Char → Bool) (cs : List Char)
    (h : cs.all p = true) : cs.dropLast.all p = true := by
  apply List.all_eq_true.mpr
  intro x hx
  exact List.all_eq_true.mp h x (cs.dropLast_sublist.subset hx)

theorem sep_getLast_dropLast (P : List Char) (y : Char) (zs : List Char) :
    (P ++ '/' :: y :: zs).getLast? = (y :: zs).getLast? ∧
    (P ++ '/' :: y :: zs).dropLast = P ++ '/' :: (y :: zs).dropLast := by
  constructor
  · rw [show P ++ '/' :: y :: zs = (P ++ ['/']) ++ y :: zs by simp]
    exact List.getLast?_append_of_ne_nil _ (by simp)
  · rw [List.dropLast_append_cons, List.dropLast_cons₂]

/-! The compiled-regex matcher agrees with the specification-side matcher
extended with the Python dollar-anchor newline allowance. One lemma per
token-list shape, then the combined induction. -/

theorem matchToks_lastLit_spec (l cs : List Char)
    (hl : l.all (· ≠ '/') = true) :
    matchToks [.lit l] cs = specMatchNL [.lit l] cs := by
  rcases slashDecomp cs with hfree | ⟨P, q, heq, hP⟩
  · have hsplit : splitOnCh '/' cs = [cs] := splitOnCh_single '/' cs hfree
    by_cases hcl : cs = l
    · have hchop : chopLit l cs = some [] :=
        (chopLit_iff l cs []).mpr (by rw [hcl, List.append_nil])
      have hfull : specSegs [.lit l] (splitOnCh '/' cs) = some [] := by
        rw [hsplit, specSegs_lit, if_pos hcl]
        rfl
      rw [specMatchNL_eq_full _ _ _ hfull]
      simp only [matchToks, hchop]
      rfl
    · by_cases hnl : cs = l ++ ['\n']
      · have hchop : chopLit l cs = some ['\n'] := (chopLit_iff _ _ _).mpr hnl
        have hfull : specSegs [.lit l] (splitOnCh '/' cs) = none := by
          rw [hsplit, specSegs_lit, if_neg hcl]
        have hlast : cs.getLast? = some '\n' := by
          rw [hnl]
          exact List.getLast?_concat _
        have hdrop : cs.dropLast = l := by
          rw [hnl]
          exact List.dropLast_concat
        rw [specMatchNL_eq_fallback _ _ hfull hlast, hdrop,
          splitOnCh_single '/' l hl, specSegs_lit, if_pos rfl]
        simp only [matchToks, hchop]
        rfl
      · have hfull : specSegs [.lit l] (splitOnCh '/' cs) = none := by
          rw [hsplit, specSegs_lit, if_neg hcl]
        have hlhs : matchToks [.lit l] cs = none := by
          cases hchop : chopLit l cs with
          | none => simp only [matchToks, hchop]
          | some r =>
            have hr : cs = l ++ r := (chopLit_iff _ _ _).mp hchop
            have hdr : dollarOk r = false := by
              by_cases h1 : r = []
              · exact absurd (by rw [hr, h1, List.append_nil]) hcl
              · by_cases h2 : r = ['\n']
                · exact absurd (by rw [hr, h2]) hnl
                · unfold dollarOk
                  simp [h1, h2]
            simp only [matchToks, hchop, hdr]
            rfl
        rw [hlhs]
        by_cases hlast : cs.getLast? = some '\n'
        · have hdl : cs.dropLast ++ ['\n'] = cs :=
            List.dropLast_append_getLast? '\n' hlast
          have hne2 : ¬ cs.dropLast = l := by
            intro hh
            exact hnl (by rw [← hdl, hh])
          have hfree3 : cs.dropLast.all (· ≠ '/') = true :=
            all_dropLast _ cs hfree
          rw [specMatchNL_eq_fallback _ _ hfull hlast,
            splitOnCh_single '/' _ hfree3, specSegs_lit, if_neg hne2]
        · rw [specMatchNL_eq_none _ _ hfull hlast]
  · subst heq
    have hsplit := splitOnCh_cons_sep q P hP
    have hfull : specSegs [.lit l] (splitOnCh '/' (P ++ '/' :: q)) = none := by
      rw [hsplit]
      exact specSegs_one_tok_split_sep _ P q
    have hnotl : '/' ∉ l := by
      intro hin
      have := List.all_eq_true.mp hl _ hin
      simp at this
    have hlhs : matchToks [.lit l] (P ++ '/' :: q) = none := by
      cases hchop : chopLit l (P ++ '/' :: q) with
      | none => simp only [matchToks, hchop]
      | some r =>
        have hr : P ++ '/' :: q = l ++ r := (chopLit_iff _ _ _).mp hchop
        have hmem : '/' ∈ l ++ r := by
          rw [← hr]
          exact List.mem_append_right _ (List.mem_cons_self _ _)
        have hinr : '/' ∈ r := by
          rcases List.mem_append.mp hmem with h1 | h2
          · exact absurd h1 hnotl
          · exact h2
        have hdr : dollarOk r = false := by
          by_cases h1 : r = []
          · rw [h1] at hinr
            simp at hinr
          · by_cases h2 : r = ['\n']
            · rw [h2] at hinr
              rw [List.mem_singleton] at hinr
              exact absurd hinr (by decide)
            · unfold dollarOk
              simp [h1, h2]
        simp only [matchToks, hchop, hdr]
        rfl
    rw [hlhs]
    cases q with
    | nil =>
      have hlast : ¬ (P ++ '/' :: ([] : List Char)).getLast? = some '\n' := by
        rw [show P ++ '/' :: ([] : List Char) = P ++ ['/'] from rfl,
          List.getLast?_concat]
        simp
      rw [specMatchNL_eq_none _ _ hfull hlast]
    | cons y zs =>
      obtain ⟨hgl, hdl⟩ := sep_getLast_dropLast P y zs
      by_cases hlast : (P ++ '/' :: y :: zs).getLast? = some '\n'
      · rw [specMatchNL_eq_fallback _ _ hfull hlast, hdl,
          splitOnCh_cons_sep _ P hP]
        exact (specSegs_one_tok_split_sep _ P _).symm
      · rw [specMatchNL_eq_none _ _ hfull hlast]

theorem matchToks_lastCap_spec (n cs : List Char) :
    matchToks [.cap n] cs = specMatchNL [.cap n] cs := by
  rcases slashDecomp cs with hfree | ⟨P, q, heq, hP⟩
  · have hsplit : splitOnCh '/' cs = [cs] := splitOnCh_single '/' cs hfree
    by_cases h0 : cs = []
    · subst h0
      rfl
    · have hcond : cs ≠ [] ∧ slashFree cs := ⟨h0, hfree⟩
      have hcond2 : cs ≠ [] ∧ (cs.all fun x => decide (x ≠ '/')) = true :=
        ⟨h0, hfree⟩
      have hfull : specSegs [.cap n] (splitOnCh '/' cs) =
          some [(n.asString, cs.asString)] := by
        rw [hsplit, specSegs_cap, if_pos hcond]
        rfl
      rw [specMatchNL_eq_full _ _ _ hfull]
      simp only [matchToks]
      rw [if_pos hcond2]
  · subst heq
    have hsplit := splitOnCh_cons_sep q P hP
    have hfull : specSegs [.cap n] (splitOnCh '/' (P ++ '/' :: q)) = none := by
      rw [hsplit]
      exact specSegs_one_tok_split_sep _ P q
    have hlhs : matchToks [.cap n] (P ++ '/' :: q) = none := by
      simp only [matchToks]
      rw [if_neg]
      intro hcond
      have hmem : '/' ∈ P ++ '/' :: q :=
        List.mem_append_right _ (List.mem_cons_self _ _)
      have := List.all_eq_true.mp hcond.2 _ hmem
      simp at this
    rw [hlhs]
    cases q with
    | nil =>
      have hlast : ¬ (P ++ '/' :: ([] : List Char)).getLast? = some '\n' := by
        rw [show P ++ '/' :: ([] : List Char) = P ++ ['/'] from rfl,
          List.getLast?_concat]
        simp
      rw [specMatchNL_eq_none _ _ hfull hlast]
    | cons y zs =>
      obtain ⟨hgl, hdl⟩ := sep_getLast_dropLast P y zs
      by_cases hlast : (P ++ '/' :: y :: zs).getLast? = some '\n'
      · rw [specMatchNL_eq_fallback _ _ hfull hlast, hdl,
          splitOnCh_cons_sep _ P hP]
        exact (specSegs_one_tok_split_sep _ P _).symm
      · rw [specMatchNL_eq_none _ _ hfull hlast]

theorem specMatchNL_nil (toks : List Tok) :
    specMatchNL toks [] = specSegs toks [[]] := by
  cases hs : specSegs toks [[]] with
  | some gd => exact specMatchNL_eq_full toks [] gd hs
  | none => exact specMatchNL_eq_none toks [] hs (by simp)

theorem matchToks_litStep_spec (l : List Char) (t : Tok) (ts : List Tok)
    (hl : l.all (· ≠ '/') = true)
    (ih : ∀ cs2, matchToks (t :: ts) cs2 = specMatchNL (t :: ts) cs2) :
    ∀ cs, matchToks (.lit l :: t :: ts) cs = specMatchNL (.lit l :: t :: ts) cs := by
  intro cs
  rcases slashDecomp cs with hfree | ⟨P, q, heq, hP⟩
  · have hsplit : splitOnCh '/' cs = [cs] := splitOnCh_single '/' cs hfree
    have hlhs : matchToks (.lit l :: t :: ts) cs = none := by
      cases hchop : chopLit l cs with
      | none => simp only [matchToks, hchop]
      | some r =>
        cases r with
        | nil => simp only [matchToks, hchop]
        | cons c r2 =>
          have hr : cs = l ++ c :: r2 := (chopLit_iff _ _ _).mp hchop
          have hcmem : c ∈ cs := by
            rw [hr]
            exact List.mem_append_right _ (List.mem_cons_self _ _)
          have hcne : ¬ c = '/' := by
            have := List.all_eq_true.mp hfree _ hcmem
            simpa using this
          simp only [matchToks, hchop]
          split
          · rename_i rest heq2
            rw [Option.some.injEq] at heq2
            exact absurd ((List.cons.injEq _ _ _ _).mp heq2).1 hcne
          · rfl
    rw [hlhs]
    have hfull : specSegs (.lit l :: t :: ts) (splitOnCh '/' cs) = none := by
      rw [hsplit]
      exact specSegs_two_toks_one_seg _ _ _ _
    by_cases hlast : cs.getLast? = some '\n'
    · have hfree3 := all_dropLast _ cs hfree
      rw [specMatchNL_eq_fallback _ _ hfull hlast, splitOnCh_single '/' _ hfree3]
      exact (specSegs_two_toks_one_seg _ _ _ _).symm
    · rw [specMatchNL_eq_none _ _ hfull hlast]
  · subst heq
    have hsplit := splitOnCh_cons_sep q P hP
    by_cases hPl : P = l
    · have hchop : chopLit l (P ++ '/' :: q) = some ('/' :: q) :=
        (chopLit_iff _ _ _).mpr (by rw [hPl])
      have hlhs : matchToks (.lit l :: t :: ts) (P ++ '/' :: q) =
          matchToks (t :: ts) q := by
        simp only [matchToks, hchop]
      rw [hlhs, ih q]
      cases q with
      | nil =>
        rw [specMatchNL_nil]
        cases hss : specSegs (t :: ts) [[]] with
        | some gd =>
          rw [specMatchNL_eq_full _ _ gd
            (by rw [hsplit, specSegs_lit, if_pos hPl]; exact hss)]
        | none =>
          rw [specMatchNL_eq_none _ _
            (by rw [hsplit, specSegs_lit, if_pos hPl]; exact hss)
            (by
              rw [show P ++ '/' :: ([] : List Char) = P ++ ['/'] from rfl,
                List.getLast?_concat]
              simp)]
      | cons y zs =>
        obtain ⟨hgl, hdl⟩ := sep_getLast_dropLast P y zs
        cases hss : specSegs (t :: ts) (splitOnCh '/' (y :: zs)) with
        | some gd =>
          rw [specMatchNL_eq_full _ _ gd hss,
            specMatchNL_eq_full _ _ gd
              (by rw [hsplit, specSegs_lit, if_pos hPl]; exact hss)]
        | none =>
          have hfull2 : specSegs (.lit l :: t :: ts)
              (splitOnCh '/' (P ++ '/' :: y :: zs)) = none := by
            rw [hsplit, specSegs_lit, if_pos hPl]
            exact hss
          by_cases hlast : (y :: zs).getLast? = some '\n'
          · rw [specMatchNL_eq_fallback _ _ hss hlast,
              specMatchNL_eq_fallback _ _ hfull2 (by rw [hgl]; exact hlast),
              hdl, splitOnCh_cons_sep _ P hP, specSegs_lit, if_pos hPl]
          · rw [specMatchNL_eq_none _ _ hss hlast,
              specMatchNL_eq_none _ _ hfull2 (by rw [hgl]; exact hlast)]
    · have hlhs : matchToks (.lit l :: t :: ts) (P ++ '/' :: q) = none := by
        cases hchop : chopLit l (P ++ '/' :: q) with
        | none => simp only [matchToks, hchop]
        | some r =>
          cases r with
          | nil => simp only [matchToks, hchop]
          | cons c r2 =>
            by_cases hc : c = '/'
            · subst hc
              have hr : P ++ '/' :: q = l ++ '/' :: r2 :=
                (chopLit_iff _ _ _).mp hchop
              exact absurd (sepUniq P l q r2 hP hl hr).1 hPl
            · simp only [matchToks, hchop]
              split
              · rename_i rest heq2
                rw [Option.some.injEq] at heq2
                exact absurd ((List.cons.injEq _ _ _ _).mp heq2).1 hc
              · rfl
      rw [hlhs]
      have hfull : specSegs (.lit l :: t :: ts)
          (splitOnCh '/' (P ++ '/' :: q)) = none := by
        rw [hsplit, specSegs_lit, if_neg hPl]
      cases q with
      | nil =>
        rw [specMatchNL_eq_none _ _ hfull
          (by
            rw [show P ++ '/' :: ([] : List Char) = P ++ ['/'] from rfl,
              List.getLast?_concat]
            simp)]
      | cons y zs =>
        obtain ⟨hgl, hdl⟩ := sep_getLast_dropLast P y zs
        by_cases hlast : (P ++ '/' :: y :: zs).getLast? = some '\n'
        · rw [specMatchNL_eq_fallback _ _ hfull hlast, hdl,
            splitOnCh_cons_sep _ P hP, specSegs_lit, if_neg hPl]
        · rw [specMatchNL_eq_none _ _ hfull hlast]

theorem dropWhile_all (p : Char → Bool) :
    ∀ cs : List Char, cs.all p = true → cs.dropWhile p = []
  | [], _ => rfl
  | c :: cs, h => by
    simp only [List.all_cons, Bool.and_eq_true] at h
    rw [List.dropWhile_cons, if_pos h.1]
    exact dropWhile_all p cs h.2

theorem litsSlashFree_tail (t0 : Tok) (rest : List Tok)
    (h : litsSlashFree (t0 :: rest) = true) : litsSlashFree rest = true := by
  cases t0 with
  | lit s =>
    simp only [litsSlashFree, Bool.and_eq_true] at h
    exact h.2
  | cap n => exact h

theorem litsSlashFree_head_lit (l : List Char) (rest : List Tok)
    (h : litsSlashFree (.lit l :: rest) = true) : l.all (· ≠ '/') = true := by
  simp only [litsSlashFree, Bool.and_eq_true] at h
  exact h.1

theorem matchToks_capStep_spec (n : List Char) (t : Tok) (ts : List Tok)
    (ih : ∀ cs2, matchToks (t :: ts) cs2 = specMatchNL (t :: ts) cs2) :
    ∀ cs, matchToks (.cap n :: t :: ts) cs = specMatchNL (.cap n :: t :: ts) cs := by
  intro cs
  rcases slashDecomp cs with hfree | ⟨P, q, heq, hP⟩
  · have hsplit : splitOnCh '/' cs = [cs] := splitOnCh_single '/' cs hfree
    have hdw : cs.dropWhile (· ≠ '/') = [] := dropWhile_all _ cs hfree
    have hlhs : matchToks (.cap n :: t :: ts) cs = none := by
      simp only [matchToks, hdw]
      by_cases hp : cs.takeWhile (· ≠ '/') = []
      · rw [if_pos hp]
      · rw [if_neg hp]
    rw [hlhs]
    have hfull : specSegs (.cap n :: t :: ts) (splitOnCh '/' cs) = none := by
      rw [hsplit]
      exact specSegs_two_toks_one_seg _ _ _ _
    by_cases hlast : cs.getLast? = some '\n'
    · have hfree3 := all_dropLast _ cs hfree
      rw [specMatchNL_eq_fallback _ _ hfull hlast, splitOnCh_single '/' _ hfree3]
      exact (specSegs_two_toks_one_seg _ _ _ _).symm
    · rw [specMatchNL_eq_none _ _ hfull hlast]
  · subst heq
    have hsplit := splitOnCh_cons_sep q P hP
    have htake := takeWhile_sep q P hP
    have hdrop := dropWhile_sep q P hP
    by_cases hP0 : P = []
    · have hlhs : matchToks (.cap n :: t :: ts) (P ++ '/' :: q) = none := by
        simp only [matchToks]
        rw [htake, if_pos hP0]
      rw [hlhs]
      have hncond : ¬ (P ≠ [] ∧ slashFree P) := fun hc => hc.1 hP0
      have hfull : specSegs (.cap n :: t :: ts)
          (splitOnCh '/' (P ++ '/' :: q)) = none := by
        rw [hsplit, specSegs_cap, if_neg hncond]
      cases q with
      | nil =>
        rw [specMatchNL_eq_none _ _ hfull
          (by
            rw [show P ++ '/' :: ([] : List Char) = P ++ ['/'] from rfl,
              List.getLast?_concat]
            simp)]
      | cons y zs =>
        obtain ⟨hgl, hdl⟩ := sep_getLast_dropLast P y zs
        by_cases hlast : (P ++ '/' :: y :: zs).getLast? = some '\n'
        · rw [specMatchNL_eq_fallback _ _ hfull hlast, hdl,
            splitOnCh_cons_sep _ P hP, specSegs_cap, if_neg hncond]
        · rw [specMatchNL_eq_none _ _ hfull hlast]
    · have hcond : P ≠ [] ∧ slashFree P := ⟨hP0, hP⟩
      have hlhs : matchToks (.cap n :: t :: ts) (P ++ '/' :: q) =
          (matchToks (t :: ts) q).map
            (fun gd => (n.asString, P.asString) :: gd) := by
        simp only [matchToks]
        rw [htake, hdrop, if_neg hP0]
        rfl
      rw [hlhs, ih q]
      cases q with
      | nil =>
        rw [specMatchNL_nil]
        cases hss : specSegs (t :: ts) [[]] with
        | some gd =>
          rw [specMatchNL_eq_full _ _ ((n.asString, P.asString) :: gd)
            (by
              rw [hsplit, specSegs_cap, if_pos hcond,
                show splitOnCh '/' ([] : List Char) = [[]] from rfl, hss]
              rfl)]
          rfl
        | none =>
          rw [specMatchNL_eq_none _ _
            (by
              rw [hsplit, specSegs_cap, if_pos hcond,
                show splitOnCh '/' ([] : List Char) = [[]] from rfl, hss]
              rfl)
            (by
              rw [show P ++ '/' :: ([] : List Char) = P ++ ['/'] from rfl,
                List.getLast?_concat]
              simp)]
          rfl
      | cons y zs =>
        obtain ⟨hgl, hdl⟩ := sep_getLast_dropLast P y zs
        cases hss : specSegs (t :: ts) (splitOnCh '/' (y :: zs)) with
        | some gd =>
          rw [specMatchNL_eq_full _ _ gd hss,
            specMatchNL_eq_full _ _ ((n.asString, P.asString) :: gd)
              (by rw [hsplit, specSegs_cap, if_pos hcond, hss]; rfl)]
          rfl
        | none =>
          have hfull2 : specSegs (.cap n :: t :: ts)
              (splitOnCh '/' (P ++ '/' :: y :: zs)) = none := by
            rw [hsplit, specSegs_cap, if_pos hcond, hss]
            rfl
          by_cases hlast : (y :: zs).getLast? = some '\n'
          · rw [specMatchNL_eq_fallback _ _ hss hlast,
              specMatchNL_eq_fallback _ _ hfull2 (by rw [hgl]; exact hlast),
              hdl, splitOnCh_cons_sep _ P hP, specSegs_cap, if_pos hcond]
          · rw [specMatchNL_eq_none _ _ hss hlast,
              specMatchNL_eq_none _ _ hfull2 (by rw [hgl]; exact hlast)]
            rfl

theorem matchToks_eq_specMatchNL :
    ∀ (toks : List Tok), toks ≠ [] → litsSlashFree toks = true →
      ∀ cs, matchToks toks cs = specMatchNL toks cs
  | [], hne, _ => absurd rfl hne
  | [.lit l], _, hwf =>
    fun cs => matchToks_lastLit_spec l cs (litsSlashFree_head_lit l [] hwf)
  | [.cap n], _, _ => fun cs => matchToks_lastCap_spec n cs
  | .lit l :: t :: ts, _, hwf =>
    matchToks_litStep_spec l t ts (litsSlashFree_head_lit l (t :: ts) hwf)
      (matchToks_eq_specMatchNL (t :: ts) (by simp)
        (litsSlashFree_tail _ _ hwf))
  | .cap n :: t :: ts, _, hwf =>
    matchToks_capStep_spec n t ts
      (matchToks_eq_specMatchNL (t :: ts) (by simp)
        (litsSlashFree_tail _ _ hwf))

theorem litsSlashFree_map_segTok :
    ∀ segs : List (List Char),
      (∀ s ∈ segs, s.all (· ≠ '/') = true) →
      litsSlashFree (segs.map segTok) = true
  | [], _ => rfl
  | s :: segs, h => by
    rw [List.map_cons]
    unfold segTok
    by_cases hb : s.head? = some '\x7b' ∧ s.getLast? = some '\x7d'
    · rw [if_pos hb]
      exact litsSlashFree_map_segTok segs
        (fun s2 hs2 => h s2 (List.mem_cons_of_mem _ hs2))
    · rw [if_neg hb]
      simp only [litsSlashFree, Bool.and_eq_true]
      exact ⟨h s (by simp),
        litsSlashFree_map_segTok segs
          (fun s2 hs2 => h s2 (List.mem_cons_of_mem _ hs2))⟩

theorem compileParametric_ok (tmpl : String) (toks : List Tok)
    (h : compileParametric tmpl = .ok toks) :
    toks = (splitOnCh '/' (stripCh '/' tmpl.data)).map segTok ∧
    toks ≠ [] ∧ litsSlashFree toks = true := by
  unfold compileParametric at h
  split at h
  · simp only [Except.ok.injEq] at h
    subst h
    refine ⟨rfl, ?_, ?_⟩
    · intro hmap
      rcases List.map_eq_nil_iff.mp hmap with hnil
      exact splitOnCh_ne_nil '/' _ hnil
    · exact litsSlashFree_map_segTok _
        (fun s hs => splitOnCh_sepFree '/' _ s hs)
  · exact absurd h (by simp)

/-- Claim C2 (amended): for every compiled path template, matching is
exactly the structural segment matching the specification describes —
literal segments by exact text equality, capture segments by one non-empty
slash-free segment, equal segment counts, whole path from start to end —
EXCEPT for one Python regex artifact the claim as stated misses: the `$`
anchor also accepts a single trailing newline, so a path that is a
structurally matching path followed by one final `\n` also matches (with
the newline inside the final capture when the final token is a capture,
since the greedy attempt is preferred). -/
theorem claim2_template_matching_amended (tmpl path : String) (toks : List Tok)
    (hc : compileParametric tmpl = .ok toks) :
    reMatch toks path =
      (match specPathMatch toks path with
       | some gd => some gd
       | none =>
         if path.data.getLast? = some '\n' then
           specPathMatch toks path.data.dropLast.asString
         else none) := by
  obtain ⟨_, hne, hwf⟩ := compileParametric_ok tmpl toks hc
  have hrt : ∀ l : List Char, (l.asString).data = l := fun _ => rfl
  cases hpd : path.data with
  | nil =>
    have hlhs : reMatch toks path = none := by
      unfold reMatch
      rw [hpd]
    have hfull : specPathMatch toks path = none := by
      unfold specPathMatch
      rw [hpd]
    rw [hlhs]
    simp only [hfull]
    simp
  | cons c cs =>
    by_cases hc2 : c = '/'
    · subst hc2
      have hlhs : reMatch toks path = matchToks toks cs := by
        simp only [reMatch, hpd]
      rw [hlhs, matchToks_eq_specMatchNL toks hne hwf cs]
      cases cs with
      | nil =>
        have hfull : specPathMatch toks path = specSegs toks [[]] := by
          simp only [specPathMatch, hpd]
          rfl
        rw [specMatchNL_nil]
        cases hss : specSegs toks [[]] with
        | some gd =>
          simp only [hfull.trans hss]
        | none =>
          simp only [hfull.trans hss]
          simp
      | cons y zs =>
        have hfull : specPathMatch toks path =
            specSegs toks (splitOnCh '/' (y :: zs)) := by
          simp only [specPathMatch, hpd]
        have hgl : ('/' :: y :: zs).getLast? = (y :: zs).getLast? :=
          List.getLast?_append_of_ne_nil ['/'] (by simp)
        have hfall : specPathMatch toks (('/' :: y :: zs).dropLast.asString) =
            specSegs toks (splitOnCh '/' (y :: zs).dropLast) := by
          have hdl2 : ('/' :: y :: zs).dropLast = '/' :: (y :: zs).dropLast :=
            List.dropLast_cons₂
          simp only [specPathMatch, hrt, hdl2]
        cases hss : specSegs toks (splitOnCh '/' (y :: zs)) with
        | some gd =>
          rw [specMatchNL_eq_full _ _ gd hss]
          simp only [hfull.trans hss]
        | none =>
          simp only [hfull.trans hss]
          by_cases hlast : (y :: zs).getLast? = some '\n'
          · rw [specMatchNL_eq_fallback _ _ hss hlast,
              if_pos (by rw [hgl]; exact hlast), hfall]
          · rw [specMatchNL_eq_none _ _ hss hlast,
              if_neg (by rw [hgl]; exact hlast)]
    · have hlhs : reMatch toks path = none := by
        unfold reMatch
        rw [hpd]
        split
        · rename_i cs2 heq
          exact absurd ((List.cons.injEq _ _ _ _).mp heq).1 hc2
        · rfl
      have hfull : specPathMatch toks path = none := by
        unfold specPathMatch
        rw [hpd]
        split
        · rename_i cs2 heq
          exact absurd ((List.cons.injEq _ _ _ _).mp heq).1 hc2
        · rfl
      have hfall : specPathMatch toks ((c :: cs).dropLast.asString) = none := by
        unfold specPathMatch
        rw [hrt]
        cases cs with
        | nil => rfl
        | cons y zs =>
          rw [List.dropLast_cons₂]
          split
          · rename_i cs2 heq
            exact absurd ((List.cons.injEq _ _ _ _).mp heq).1 hc2
          · rfl
      rw [hlhs]
      simp only [hfull]
      by_cases hlast : (c :: cs).getLast? = some '\n'
      · rw [if_pos hlast, hfall]
      · rw [if_neg hlast]

/-- Counterexample to C2 as stated: the template consisting of the single
literal segment `a` compiles, and its pattern matches the path containing
one extra trailing newline character, although that path is not literally
equal to `/a` — Python's `$` anchor accepts a final newline, contradicting
"matches only by exact literal text equality ... from start to end". -/
theorem claim2_counterexample_trailing_newline :
    compileParametric "/a" = .ok [.lit ['a']] ∧
    reMatch [.lit ['a']] "/a\n" = some [] ∧
    "/a\n" ≠ "/a" :=
  ⟨rfl, rfl, by decide⟩

/-- Witness for C2 at a concrete template and path: the compiled template
with one literal and one capture segment matches a structurally
corresponding path and extracts exactly the variable segment, agreeing
with the structural matcher. -/
theorem claim2_witness :
    reMatch [.lit ['t', 'e', 's', 't'], .cap ['f', 'i', 'l', 'e']]
        "/test/report.pdf" = some [("file", "report.pdf")] ∧
    specPathMatch [.lit ['t', 'e', 's', 't'], .cap ['f', 'i', 'l', 'e']]
        "/test/report.pdf" = some [("file", "report.pdf")] := by
  have h := claim2_template_matching_amended "/test/\x7bfile\x7d"
    "/test/report.pdf" [.lit ['t', 'e', 's', 't'], .cap ['f', 'i', 'l', 'e']]
    rfl
  constructor
  · rw [h]
    rfl
  · rfl

end GranianWeb
